import Mathlib

/-!
Verification model of the URL hash binding (`src/neuroglancer/ui/url_hash_binding.ts`).

The binding synchronizes a trackable state tree with the document URL
fragment.  We embed the pure content of the two operations `setUrlHash`
and `updateFromUrlHash` as state-passing functions over an explicit
`BindingState`, recording tree mutations (`reset` / `restoreState`) and
URL mutations as effect lists.  Browser primitives (`encodeURI`,
`decodeURIComponent`) are modelled on the ASCII fragment of their
specified behaviour, which covers all encodings exercised here.
-/

/-- Left curly brace character, written via its code point. -/
def lbrace : Char := Char.ofNat 123

/-- Right curly brace character. -/
def rbrace : Char := Char.ofNat 125

/-- Double quote character. -/
def dquote : Char := Char.ofNat 34

/-- Apostrophe character. -/
def squote : Char := Char.ofNat 39

/-- Backslash character. -/
def bslash : Char := Char.ofNat 92

def isLowerAlpha (c : Char) : Bool := 97 ≤ c.toNat && c.toNat ≤ 122

def isUpperAlpha (c : Char) : Bool := 65 ≤ c.toNat && c.toNat ≤ 90

def isDigitChar (c : Char) : Bool := 48 ≤ c.toNat && c.toNat ≤ 57

/-- Uppercase hexadecimal digit, as produced by `toString(16).toUpperCase()`. -/
def hexDigitChar (n : Nat) : Char :=
  if n < 10 then Char.ofNat (48 + n) else Char.ofNat (55 + n)

/-- Percent-escape of a single byte, uppercase hex. -/
def pctEncodeByte (b : Nat) : List Char :=
  ['%', hexDigitChar (b / 16), hexDigitChar (b % 16)]

/-- UTF-8 byte sequence of a code point. -/
def utf8Bytes (n : Nat) : List Nat :=
  if n < 128 then [n]
  else if n < 2048 then [192 + n / 64, 128 + n % 64]
  else if n < 65536 then [224 + n / 4096, 128 + (n / 64) % 64, 128 + n % 64]
  else [240 + n / 262144, 128 + (n / 4096) % 64, 128 + (n / 64) % 64, 128 + n % 64]

/-- Characters left intact by `encodeURI`: alphanumerics, `uriMark`,
`uriReserved` and the hash sign. -/
def encodeURIUnescaped (c : Char) : Bool :=
  isUpperAlpha c || isLowerAlpha c || isDigitChar c ||
  c = ';' || c = '/' || c = '?' || c = ':' || c = '@' || c = '&' || c = '=' ||
  c = '+' || c = '$' || c = ',' || c = '-' || c = '_' || c = '.' || c = '!' ||
  c = '~' || c = '*' || c = squote || c = '(' || c = ')' || c = '#'

def encodeURIChar (c : Char) : List Char :=
  if encodeURIUnescaped c then [c] else ((utf8Bytes c.toNat).map pctEncodeByte).flatten

/-- Model of the browser builtin `encodeURI`. -/
def encodeURIChars (l : List Char) : List Char := (l.map encodeURIChar).flatten

/-- The additional characters escaped by `encodeFragment` on top of
`encodeURI`: the regular expression class `[!'()*;,]`. -/
def isSpecialChar (c : Char) : Bool :=
  c = '!' || c = squote || c = '(' || c = ')' || c = '*' || c = ';' || c = ','

/-- The `.replace(/[!'()*;,]/g, ...)` step of `encodeFragment`. -/
def replaceSpecialChars (l : List Char) : List Char :=
  (l.map (fun c => if isSpecialChar c then pctEncodeByte c.toNat else [c])).flatten

/-- `encodeFragment` from the source: `encodeURI` followed by escaping of
the special character class, each as uppercase `%XX`. -/
def encodeFragmentChars (l : List Char) : List Char :=
  replaceSpecialChars (encodeURIChars l)

def encodeFragment (s : String) : String := String.mk (encodeFragmentChars s.data)

/-- Value of a hexadecimal digit; both cases accepted. -/
def hexVal (c : Char) : Option Nat :=
  if isDigitChar c then some (c.toNat - 48)
  else if 65 ≤ c.toNat && c.toNat ≤ 70 then some (c.toNat - 55)
  else if 97 ≤ c.toNat && c.toNat ≤ 102 then some (c.toNat - 87)
  else none

/-- Model of the browser builtin `decodeURIComponent` on the ASCII
fragment of its behaviour: `%XX` sequences decode to the byte's
character, malformed escapes fail (`URIError`).  Multi-byte UTF-8
sequences are outside the encodings exercised by the binding and are
not modelled. -/
def decodeChars : List Char → Option (List Char)
  | [] => some []
  | c :: rest =>
    if c = '%' then
      match rest with
      | h1 :: h2 :: rest2 =>
        match hexVal h1, hexVal h2 with
        | some a, some b =>
          if 16 * a + b < 128 then
            (decodeChars rest2).map (fun l => Char.ofNat (16 * a + b) :: l)
          else none
        | _, _ => none
      | _ => none
    else (decodeChars rest).map (fun l => c :: l)

def decodeURIComponent (s : String) : Option String :=
  (decodeChars s.data).map String.mk

/-!
JSON value model.  The state tree's serialized values are JSON values;
serialization (`JSON.stringify`) and parsing are external collaborators
of the binding.  Numbers are modelled as integers and strings on the
ASCII range, which covers the encodings the claims quantify over.
-/

mutual
inductive JsonValue where
  | null
  | boolean (b : Bool)
  | number (n : Int)
  | string (s : String)
  | array (elems : JsonList)
  | object (members : JsonMembers)
inductive JsonList where
  | nil
  | cons (head : JsonValue) (tail : JsonList)
inductive JsonMembers where
  | nil
  | cons (key : String) (val : JsonValue) (tail : JsonMembers)
end

deriving instance DecidableEq for JsonValue, JsonList, JsonMembers

def digitChar (n : Nat) : Char := Char.ofNat (48 + n)

def natDigitsAux : Nat → Nat → List Char
  | _, 0 => []
  | n, fuel + 1 =>
    if n < 10 then [digitChar n]
    else natDigitsAux (n / 10) fuel ++ [digitChar (n % 10)]

/-- Decimal digits of a natural number, most significant first. -/
def natDigits (n : Nat) : List Char := natDigitsAux n (n + 1)

theorem natDigitsAux_fuel (fuel : Nat) : ∀ (n fuel' : Nat), n < fuel → n < fuel' →
    natDigitsAux n fuel = natDigitsAux n fuel' := by
  induction fuel with
  | zero => intro n fuel' h; omega
  | succ f ih =>
    intro n fuel' h h'
    obtain ⟨f2, rfl⟩ : ∃ f2, fuel' = f2 + 1 := ⟨fuel' - 1, by omega⟩
    show natDigitsAux n (f + 1) = natDigitsAux n (f2 + 1)
    unfold natDigitsAux
    by_cases h10 : n < 10
    · rw [if_pos h10, if_pos h10]
    · rw [if_neg h10, if_neg h10]
      have hd : n / 10 < n := Nat.div_lt_self (by omega) (by omega)
      have h1 : n / 10 < f := by omega
      have h2 : n / 10 < f2 := by omega
      rw [ih (n / 10) f2 h1 h2]

/-- Unfolding equation for `natDigits`. -/
theorem natDigits_eq (n : Nat) :
    natDigits n = if n < 10 then [digitChar n]
      else natDigits (n / 10) ++ [digitChar (n % 10)] := by
  by_cases h10 : n < 10
  · rw [if_pos h10]
    show natDigitsAux n (n + 1) = _
    unfold natDigitsAux
    rw [if_pos h10]
  · rw [if_neg h10]
    show natDigitsAux n (n + 1) = natDigitsAux (n / 10) (n / 10 + 1) ++ [digitChar (n % 10)]
    conv_lhs => unfold natDigitsAux
    rw [if_neg h10]
    have hd : n / 10 < n := Nat.div_lt_self (by omega) (by omega)
    rw [natDigitsAux_fuel n (n / 10) (n / 10 + 1) hd (by omega)]

def intChars (n : Int) : List Char :=
  if n < 0 then '-' :: natDigits (-n).toNat else natDigits n.toNat

/-- String-body escaping of `JSON.stringify` restricted to the quote and
backslash escapes; control characters are outside the modelled range. -/
def escapeStringChars (l : List Char) : List Char :=
  (l.map (fun c => if c = dquote || c = bslash then [bslash, c] else [c])).flatten

mutual
/-- Modelled from the spec: serialization of the state tree value to
JSON text (`JSON.stringify(cacheState.value)`), an external collaborator
of the binding (spec §3, §4.1 step 4). -/
def jsonStringifyChars : JsonValue → List Char
  | .null => ['n', 'u', 'l', 'l']
  | .boolean true => ['t', 'r', 'u', 'e']
  | .boolean false => ['f', 'a', 'l', 's', 'e']
  | .number n => intChars n
  | .string s => dquote :: escapeStringChars s.data ++ [dquote]
  | .array xs => '[' :: stringifyElems xs ++ [']']
  | .object ms => lbrace :: stringifyMembers ms ++ [rbrace]
def stringifyElems : JsonList → List Char
  | .nil => []
  | .cons v .nil => jsonStringifyChars v
  | .cons v tl => jsonStringifyChars v ++ ',' :: stringifyElems tl
def stringifyMembers : JsonMembers → List Char
  | .nil => []
  | .cons k v .nil => dquote :: escapeStringChars k.data ++ dquote :: ':' :: jsonStringifyChars v
  | .cons k v tl =>
    (dquote :: escapeStringChars k.data ++ dquote :: ':' :: jsonStringifyChars v)
      ++ ',' :: stringifyMembers tl
end

def jsonStringify (v : JsonValue) : String := String.mk (jsonStringifyChars v)

/-- Body of a JSON string after the opening quote: consume until the
closing quote, interpreting a backslash as escaping the next character. -/
def parseStringBody : List Char → Option (List Char × List Char)
  | [] => none
  | c :: rest =>
    if c = dquote then some ([], rest)
    else if c = bslash then
      match rest with
      | [] => none
      | c2 :: rest2 => (parseStringBody rest2).map (fun p => (c2 :: p.1, p.2))
    else (parseStringBody rest).map (fun p => (c :: p.1, p.2))

def parseDigits : List Char → Nat → Nat × List Char
  | [], acc => (acc, [])
  | c :: rest, acc =>
    if isDigitChar c then parseDigits rest (10 * acc + (c.toNat - 48)) else (acc, c :: rest)

/-- Head of the remaining input is not a decimal digit (so a number
parse stops exactly there). -/
def headNotDigit : List Char → Bool
  | [] => true
  | c :: _ => !(isDigitChar c)

def parseNumberChars : List Char → Option (Int × List Char)
  | [] => none
  | c :: rest =>
    if c = '-' then
      if headNotDigit rest then none
      else some (-((parseDigits rest 0).1 : Int), (parseDigits rest 0).2)
    else if isDigitChar c then
      some (((parseDigits (c :: rest) 0).1 : Int), (parseDigits (c :: rest) 0).2)
    else none

mutual
/-- Modelled from the spec: the JSON parser underlying `urlSafeParse`
(`neuroglancer/util/json`, not under `src/`): recursive-descent parse of
the decoded fragment text as a JSON value (spec §4.2 steps 3b/3c).
Fuel-indexed; `urlSafeParseChars` supplies sufficient fuel. -/
def parseValue : Nat → List Char → Option (JsonValue × List Char)
  | 0, _ => none
  | _ + 1, [] => none
  | fuel + 1, c :: rest =>
    if c = dquote then
      (parseStringBody rest).map (fun p => (JsonValue.string (String.mk p.1), p.2))
    else if c = '[' then
      match rest with
      | [] => none
      | d :: rest2 =>
        if d = ']' then some (JsonValue.array JsonList.nil, rest2)
        else (parseElems fuel rest).map (fun p => (JsonValue.array p.1, p.2))
    else if c = lbrace then
      match rest with
      | [] => none
      | d :: rest2 =>
        if d = rbrace then some (JsonValue.object JsonMembers.nil, rest2)
        else (parseMembers fuel rest).map (fun p => (JsonValue.object p.1, p.2))
    else if c = 'n' then
      match rest with
      | 'u' :: 'l' :: 'l' :: rest2 => some (JsonValue.null, rest2)
      | _ => none
    else if c = 't' then
      match rest with
      | 'r' :: 'u' :: 'e' :: rest2 => some (JsonValue.boolean true, rest2)
      | _ => none
    else if c = 'f' then
      match rest with
      | 'a' :: 'l' :: 's' :: 'e' :: rest2 => some (JsonValue.boolean false, rest2)
      | _ => none
    else if c = '-' || isDigitChar c then
      (parseNumberChars (c :: rest)).map (fun p => (JsonValue.number p.1, p.2))
    else none
def parseElems : Nat → List Char → Option (JsonList × List Char)
  | 0, _ => none
  | fuel + 1, l =>
    match parseValue fuel l with
    | none => none
    | some (v, r) =>
      match r with
      | [] => none
      | d :: r2 =>
        if d = ',' then (parseElems fuel r2).map (fun p => (JsonList.cons v p.1, p.2))
        else if d = ']' then some (JsonList.cons v JsonList.nil, r2)
        else none
def parseMembers : Nat → List Char → Option (JsonMembers × List Char)
  | 0, _ => none
  | _ + 1, [] => none
  | fuel + 1, c :: rest =>
    if c = dquote then
      match parseStringBody rest with
      | none => none
      | some (k, r) =>
        match r with
        | [] => none
        | d :: r2 =>
          if d = ':' then
            match parseValue fuel r2 with
            | none => none
            | some (v, r3) =>
              match r3 with
              | [] => none
              | e :: r4 =>
                if e = ',' then
                  (parseMembers fuel r4).map
                    (fun p => (JsonMembers.cons (String.mk k) v p.1, p.2))
                else if e = rbrace then
                  some (JsonMembers.cons (String.mk k) v JsonMembers.nil, r4)
                else none
          else none
    else none
end

def urlSafeParseChars (l : List Char) : Option JsonValue :=
  match parseValue (l.length + 1) l with
  | some (v, []) => some v
  | _ => none

/-- Modelled from the spec: `urlSafeParse` (`neuroglancer/util/json`,
not under `src/`), which parses the decoded fragment as JSON and fails
on malformed input; `none` plays the role of the thrown parse error. -/
def urlSafeParse (s : String) : Option JsonValue := urlSafeParseChars s.data

/-- Modelled from the spec: `verifyObject` succeeds exactly on JSON
objects (spec §4.2: "fails if not an object"). -/
def isJsonObject : JsonValue → Bool
  | .object _ => true
  | _ => false

/-!
The binding proper.  Mutable fields of `UrlHashBinding` become a
`BindingState`; tree mutations and URL mutations become effect lists;
the caught-or-not result of `updateFromUrlHash` becomes an `Outcome`.
-/

inductive ErrKind where
  | malformedFragment
  | uriError
  | jsonError
  | notObject
deriving DecidableEq

/-- The binding's mutable fields: `prevStateString`,
`prevStateGeneration` and the `parseError` watchable cell. -/
structure BindingState where
  prevStateString : Option String
  prevStateGeneration : Option Nat
  parseError : Option ErrKind
deriving DecidableEq

/-- Mutations applied to the state tree (`this.root`). -/
inductive TreeOp where
  | reset
  | restoreState (v : JsonValue)
deriving DecidableEq

/-- URL mutations performed by `setUrlHash` via `history.replaceState`. -/
inductive UrlEffect where
  | stripJsonUrl
  | setHash (fragment : String)
deriving DecidableEq

/-- Synchronous result of one `updateFromUrlHash` cycle. -/
inductive Outcome where
  | success
  | echo
  | failed (e : ErrKind)
  | remote (url : String)
deriving DecidableEq

/-- `setUrlHash` (source lines 77-94): strip `json_url`, short-circuit
on unchanged generation, re-serialize, short-circuit on unchanged
encoding, else write `#` for the empty object or `#!` plus the encoded
string.  Inputs are the tree's cached value and generation
(`getCachedJson(this.root)`). -/
def setUrlHash (value : JsonValue) (generation : Nat) (st : BindingState) :
    BindingState × List UrlEffect :=
  if st.prevStateGeneration = some generation then (st, [UrlEffect.stripJsonUrl])
  else
    let st1 := { st with prevStateGeneration := some generation }
    let stateString := encodeFragment (jsonStringify value)
    if st.prevStateString = some stateString then (st1, [UrlEffect.stripJsonUrl])
    else
      let st2 := { st1 with prevStateString := some stateString }
      if decodeURIComponent stateString = some (String.mk [lbrace, rbrace]) then
        (st2, [UrlEffect.stripJsonUrl, UrlEffect.setHash "#"])
      else
        (st2, [UrlEffect.stripJsonUrl, UrlEffect.setHash ("#!" ++ stateString)])

/-- `checkRedirectFragment` (source lines 106-114): the input is the
decoded `redirect_fragment` query parameter when present.  Returns the
found flag and the parameter's value with `#` prepended. -/
def checkRedirectFragment (redirect : Option String) : Bool × String :=
  match redirect with
  | none => (false, "")
  | some f => (true, "#" ++ f)

def listStartsWith : List Char → List Char → Bool
  | _, [] => true
  | [], _ :: _ => false
  | c :: l, p :: ps => c = p && listStartsWith l ps

/-- Characters of the scheme class `[a-z\d+-.]` of the remote-state
regular expression (the range `+-.` covers codes 43 to 46). -/
def isSchemeChar (c : Char) : Bool :=
  isLowerAlpha c || isDigitChar c || (43 ≤ c.toNat && c.toNat ≤ 46)

/-- After the leading scheme character: a run of scheme characters
followed by `://`. -/
def schemeTailMatch : List Char → Bool
  | [] => false
  | c :: rest =>
    if c = ':' then listStartsWith rest ['/', '/']
    else isSchemeChar c && schemeTailMatch rest

/-- The remote-state test `s.match(/^#!([a-z][a-z\d+-.]*):\/\//)`. -/
def isRemoteFragment (s : String) : Bool :=
  match s.data with
  | '#' :: '!' :: c :: rest => isLowerAlpha c && schemeTailMatch (c :: rest)
  | _ => false

/-- Percent-decode a payload once, and a second time when the redirect
fragment was recovered (`if(found) s = decodeURIComponent(s)`). -/
def decodePayload (found : Bool) (payload : List Char) : Option (List Char) :=
  match decodeChars payload with
  | none => none
  | some s2 => if found then decodeChars s2 else some s2

/-- Standard-form branch body (source lines 156-170) applied to the
decoded payload: echo short-circuit against `prevStateString`, else
record the string, reset the tree, parse, verify, restore. -/
def standardRestore (st : BindingState) (s3 : List Char) :
    BindingState × List TreeOp × Outcome :=
  if st.prevStateString = some (String.mk s3) then (st, [], Outcome.echo)
  else
    let st1 := { st with prevStateString := some (String.mk s3) }
    match urlSafeParseChars s3 with
    | none =>
      ({ st1 with parseError := some ErrKind.jsonError }, [TreeOp.reset],
        Outcome.failed ErrKind.jsonError)
    | some v =>
      if isJsonObject v then
        ({ st1 with parseError := none }, [TreeOp.reset, TreeOp.restoreState v],
          Outcome.success)
      else
        ({ st1 with parseError := some ErrKind.notObject }, [TreeOp.reset],
          Outcome.failed ErrKind.notObject)

/-- Legacy `#!+` branch body (source lines 144-155) applied to the
decoded payload: parse, verify, restore without reset, clear
`prevStateString`. -/
def legacyRestore (st : BindingState) (s3 : List Char) :
    BindingState × List TreeOp × Outcome :=
  match urlSafeParseChars s3 with
  | none =>
    ({ st with parseError := some ErrKind.jsonError }, [],
      Outcome.failed ErrKind.jsonError)
  | some v =>
    if isJsonObject v then
      ({ st with prevStateString := none, parseError := none },
        [TreeOp.restoreState v], Outcome.success)
    else
      ({ st with parseError := some ErrKind.notObject }, [],
        Outcome.failed ErrKind.notObject)

/-- The effective fragment of an inbound cycle: the recovered redirect
fragment when found, otherwise the literal fragment with the empty
forms `''`, `'#'`, `'#!'` replaced by the canonical `'#!{}'`. -/
def effectiveFragment (redirect : Option String) (literalFragment : String) : String :=
  if (checkRedirectFragment redirect).1 then (checkRedirectFragment redirect).2
  else if literalFragment = "" || literalFragment = "#" || literalFragment = "#!" then
    String.mk ['#', '!', lbrace, rbrace]
  else literalFragment

/-- Classification and decoding of the effective fragment (source lines
132-177): remote reference, legacy `#!+`, standard `#!`, else the
malformed-fragment error. -/
def classifyFragment (found : Bool) (s : String) (st : BindingState) :
    BindingState × List TreeOp × Outcome :=
  if isRemoteFragment s then
    ({ st with parseError := none }, [], Outcome.remote (String.mk (s.data.drop 2)))
  else if listStartsWith s.data ['#', '!', '+'] then
    match decodePayload found (s.data.drop 3) with
    | none =>
      ({ st with parseError := some ErrKind.uriError }, [],
        Outcome.failed ErrKind.uriError)
    | some s3 => legacyRestore st s3
  else if listStartsWith s.data ['#', '!'] then
    match decodePayload found (s.data.drop 2) with
    | none =>
      ({ st with parseError := some ErrKind.uriError }, [],
        Outcome.failed ErrKind.uriError)
    | some s3 => standardRestore st s3
  else
    ({ st with parseError := some ErrKind.malformedFragment }, [],
      Outcome.failed ErrKind.malformedFragment)

/-- `updateFromUrlHash` (source lines 120-178).  Inputs: the decoded
`redirect_fragment` query parameter (if present) and the URL's literal
fragment `location.href.replace(/^[^#]+/, '')`.  Returns the binding
state after the cycle, the tree mutations applied, and the outcome; a
`failed e` outcome is the caught error assigned to the `parseError`
cell, `echo` is the early return that leaves every field untouched. -/
def updateFromUrlHash (redirect : Option String) (literalFragment : String)
    (st : BindingState) : BindingState × List TreeOp × Outcome :=
  classifyFragment (checkRedirectFragment redirect).1
    (effectiveFragment redirect literalFragment) st

/-!
Basic character lemmas.
-/

theorem char_toNat_ofNat (n : Nat) (h : n < 55296) : (Char.ofNat n).toNat = n := by
  simp [Char.ofNat, Nat.isValidChar, h, Char.toNat, Char.ofNatAux, UInt32.toNat,
    UInt32.ofNatCore]

theorem char_eq_of_toNat_eq {c d : Char} (h : c.toNat = d.toNat) : c = d := by
  cases c; cases d
  simp only [Char.toNat] at h
  congr 1
  exact UInt32.ext h

/-!
Branch characterizations of `standardRestore` and `legacyRestore`,
used by the frame theorems below.
-/

theorem standardRestore_failed (st : BindingState) (s3 : List Char) (e : ErrKind)
    (h : (standardRestore st s3).2.2 = Outcome.failed e) :
    (standardRestore st s3).1.parseError = some e
    ∧ (standardRestore st s3).2.1 = [TreeOp.reset] := by
  unfold standardRestore at h ⊢
  by_cases hp : st.prevStateString = some (String.mk s3)
  · rw [if_pos hp] at h; simp at h
  · rw [if_neg hp] at h ⊢
    cases hparse : urlSafeParseChars s3 with
    | none => simp only [hparse] at h ⊢; simp_all
    | some v =>
      simp only [hparse] at h ⊢
      by_cases ho : isJsonObject v = true
      · rw [if_pos ho] at h; simp at h
      · rw [if_neg ho] at h ⊢; simp_all

theorem legacyRestore_failed (st : BindingState) (s3 : List Char) (e : ErrKind)
    (h : (legacyRestore st s3).2.2 = Outcome.failed e) :
    (legacyRestore st s3).1.parseError = some e
    ∧ (legacyRestore st s3).2.1 = [] := by
  unfold legacyRestore at h ⊢
  cases hparse : urlSafeParseChars s3 with
  | none => simp only [hparse] at h ⊢; simp_all
  | some v =>
    simp only [hparse] at h ⊢
    by_cases ho : isJsonObject v = true
    · rw [if_pos ho] at h; simp at h
    · rw [if_neg ho] at h ⊢; simp_all

theorem standardRestore_generation (st : BindingState) (s3 : List Char) :
    (standardRestore st s3).1.prevStateGeneration = st.prevStateGeneration := by
  unfold standardRestore
  by_cases hp : st.prevStateString = some (String.mk s3)
  · rw [if_pos hp]
  · rw [if_neg hp]
    cases hparse : urlSafeParseChars s3 with
    | none => simp only [hparse]
    | some v =>
      simp only [hparse]
      by_cases ho : isJsonObject v = true
      · rw [if_pos ho]
      · rw [if_neg ho]

theorem legacyRestore_generation (st : BindingState) (s3 : List Char) :
    (legacyRestore st s3).1.prevStateGeneration = st.prevStateGeneration := by
  unfold legacyRestore
  cases hparse : urlSafeParseChars s3 with
  | none => simp only [hparse]
  | some v =>
    simp only [hparse]
    by_cases ho : isJsonObject v = true
    · rw [if_pos ho]
    · rw [if_neg ho]

theorem standardRestore_echo (st : BindingState) (s3 : List Char)
    (h : (standardRestore st s3).2.2 = Outcome.echo) :
    standardRestore st s3 = (st, [], Outcome.echo) := by
  unfold standardRestore at h ⊢
  by_cases hp : st.prevStateString = some (String.mk s3)
  · rw [if_pos hp] at h ⊢
  · rw [if_neg hp] at h ⊢
    cases hparse : urlSafeParseChars s3 with
    | none => simp only [hparse] at h; simp at h
    | some v =>
      simp only [hparse] at h
      by_cases ho : isJsonObject v = true
      · rw [if_pos ho] at h; simp at h
      · rw [if_neg ho] at h; simp at h

theorem legacyRestore_not_echo (st : BindingState) (s3 : List Char) :
    (legacyRestore st s3).2.2 ≠ Outcome.echo := by
  unfold legacyRestore
  cases hparse : urlSafeParseChars s3 with
  | none => simp only [hparse]; simp
  | some v =>
    simp only [hparse]
    by_cases ho : isJsonObject v = true
    · rw [if_pos ho]; simp
    · rw [if_neg ho]; simp

theorem classifyFragment_failed (found : Bool) (s : String) (st : BindingState)
    (e : ErrKind) (h : (classifyFragment found s st).2.2 = Outcome.failed e) :
    (classifyFragment found s st).1.parseError = some e
    ∧ ((classifyFragment found s st).2.1 = []
        ∨ (classifyFragment found s st).2.1 = [TreeOp.reset]) := by
  unfold classifyFragment at h ⊢
  by_cases hr : isRemoteFragment s = true
  · rw [if_pos hr] at h; simp at h
  · rw [if_neg hr] at h ⊢
    by_cases hl : listStartsWith s.data ['#', '!', '+'] = true
    · rw [if_pos hl] at h ⊢
      cases hd : decodePayload found (s.data.drop 3) with
      | none => simp only [hd] at h ⊢; simp_all
      | some s3 =>
        simp only [hd] at h ⊢
        exact ⟨(legacyRestore_failed st s3 e h).1, Or.inl (legacyRestore_failed st s3 e h).2⟩
    · rw [if_neg hl] at h ⊢
      by_cases hs : listStartsWith s.data ['#', '!'] = true
      · rw [if_pos hs] at h ⊢
        cases hd : decodePayload found (s.data.drop 2) with
        | none => simp only [hd] at h ⊢; simp_all
        | some s3 =>
          simp only [hd] at h ⊢
          exact ⟨(standardRestore_failed st s3 e h).1,
            Or.inr (standardRestore_failed st s3 e h).2⟩
      · rw [if_neg hs] at h ⊢; simp_all

theorem classifyFragment_generation (found : Bool) (s : String) (st : BindingState) :
    (classifyFragment found s st).1.prevStateGeneration = st.prevStateGeneration := by
  unfold classifyFragment
  by_cases hr : isRemoteFragment s = true
  · rw [if_pos hr]
  · rw [if_neg hr]
    by_cases hl : listStartsWith s.data ['#', '!', '+'] = true
    · rw [if_pos hl]
      cases hd : decodePayload found (s.data.drop 3) with
      | none => simp only [hd]
      | some s3 => simp only [hd]; exact legacyRestore_generation st s3
    · rw [if_neg hl]
      by_cases hs : listStartsWith s.data ['#', '!'] = true
      · rw [if_pos hs]
        cases hd : decodePayload found (s.data.drop 2) with
        | none => simp only [hd]
        | some s3 => simp only [hd]; exact standardRestore_generation st s3
      · rw [if_neg hs]

theorem classifyFragment_echo (found : Bool) (s : String) (st : BindingState)
    (h : (classifyFragment found s st).2.2 = Outcome.echo) :
    classifyFragment found s st = (st, [], Outcome.echo) := by
  unfold classifyFragment at h ⊢
  by_cases hr : isRemoteFragment s = true
  · rw [if_pos hr] at h; simp at h
  · rw [if_neg hr] at h ⊢
    by_cases hl : listStartsWith s.data ['#', '!', '+'] = true
    · rw [if_pos hl] at h ⊢
      cases hd : decodePayload found (s.data.drop 3) with
      | none => simp only [hd] at h; simp at h
      | some s3 =>
        simp only [hd] at h ⊢
        exact absurd h (legacyRestore_not_echo st s3)
    · rw [if_neg hl] at h ⊢
      by_cases hs : listStartsWith s.data ['#', '!'] = true
      · rw [if_pos hs] at h ⊢
        cases hd : decodePayload found (s.data.drop 2) with
        | none => simp only [hd] at h; simp at h
        | some s3 => simp only [hd] at h ⊢; exact standardRestore_echo st s3 h
      · rw [if_neg hs] at h; simp at h

/-!
Claim theorems: inbound error handling and cursor invariants.
-/

/-- C2, counterexample: the claim asserts that on failure the tree is
left unmutated, with no `reset()` applied before the failure point in
any synchronous branch.  On the fragment `#!x` the parse fails, yet the
standard branch has already applied `reset()`, so the tree is mutated. -/
theorem c2_counterexample :
    (updateFromUrlHash none "#!x" ⟨none, none, none⟩).2.2
      = Outcome.failed ErrKind.jsonError
    ∧ (updateFromUrlHash none "#!x" ⟨none, none, none⟩).2.1 = [TreeOp.reset] :=
  ⟨rfl, rfl⟩

/-- C2, amended: when an inbound cycle fails, the error cell holds the
caught error and no `restoreState` has been applied; the tree is
untouched except in the standard branch, where `reset()` precedes the
parse, so a failure there leaves at most a bare reset.  For the input
`#not-a-bang-form` the error cell is set and the tree is untouched. -/
theorem c2_inbound_failure_frame :
    (∀ (redirect : Option String) (literalFragment : String) (st : BindingState)
        (e : ErrKind),
       (updateFromUrlHash redirect literalFragment st).2.2 = Outcome.failed e →
       (updateFromUrlHash redirect literalFragment st).1.parseError = some e
       ∧ ((updateFromUrlHash redirect literalFragment st).2.1 = []
           ∨ (updateFromUrlHash redirect literalFragment st).2.1 = [TreeOp.reset]))
    ∧ ∀ st : BindingState,
        updateFromUrlHash none "#not-a-bang-form" st
          = ({ st with parseError := some ErrKind.malformedFragment }, [],
             Outcome.failed ErrKind.malformedFragment) :=
  ⟨fun _ _ _ e h => classifyFragment_failed _ _ _ e h, fun _ => rfl⟩

/-- C2, witness: a concrete failing cycle for the amended theorem. -/
theorem c2_inbound_failure_frame_witness :
    (updateFromUrlHash none "#!x" ⟨none, some 7, none⟩).1.parseError
      = some ErrKind.jsonError
    ∧ ((updateFromUrlHash none "#!x" ⟨none, some 7, none⟩).2.1 = []
        ∨ (updateFromUrlHash none "#!x" ⟨none, some 7, none⟩).2.1 = [TreeOp.reset]) :=
  c2_inbound_failure_frame.1 none "#!x" ⟨none, some 7, none⟩ ErrKind.jsonError (by decide)

/-- C3, counterexample: the claim asserts `prevStateString` and
`prevStateGeneration` are updated together and never assigned a
speculative value before a parse that could fail.  On `#!x` the
standard branch assigns `prevStateString := "x"` before the parse, the
parse then fails, and `prevStateGeneration` is not touched. -/
theorem c3_counterexample :
    (updateFromUrlHash none "#!x" ⟨none, none, none⟩).1.prevStateString = some "x"
    ∧ (updateFromUrlHash none "#!x" ⟨none, none, none⟩).1.prevStateGeneration = none
    ∧ (updateFromUrlHash none "#!x" ⟨none, none, none⟩).2.2
        = Outcome.failed ErrKind.jsonError :=
  ⟨rfl, rfl, rfl⟩

/-- C3, amended: `prevStateGeneration` is modified only by `setUrlHash`
(no inbound branch touches it); in `setUrlHash`, when both short
circuits miss, the two cursor fields are updated together to the pair
that is then written.  `updateFromUrlHash`'s standard branch, by
contrast, assigns `prevStateString` the decoded string before the
fallible parse. -/
theorem c3_cursor_pair_discipline :
    (∀ (redirect : Option String) (literalFragment : String) (st : BindingState),
       (updateFromUrlHash redirect literalFragment st).1.prevStateGeneration
         = st.prevStateGeneration)
    ∧ ∀ (v : JsonValue) (g : Nat) (st : BindingState),
        ¬ st.prevStateGeneration = some g →
        ¬ st.prevStateString = some (encodeFragment (jsonStringify v)) →
        (setUrlHash v g st).1.prevStateGeneration = some g
        ∧ (setUrlHash v g st).1.prevStateString
            = some (encodeFragment (jsonStringify v)) := by
  refine ⟨fun rd f st => classifyFragment_generation _ _ _, fun v g st hg hs => ?_⟩
  unfold setUrlHash
  rw [if_neg hg, if_neg hs]
  by_cases hd : decodeURIComponent (encodeFragment (jsonStringify v))
      = some (String.mk [lbrace, rbrace])
  · rw [if_pos hd]; exact ⟨rfl, rfl⟩
  · rw [if_neg hd]; exact ⟨rfl, rfl⟩

/-- C3, witness: a concrete write updating both cursor fields. -/
theorem c3_cursor_pair_discipline_witness :
    (setUrlHash (JsonValue.object JsonMembers.nil) 1 ⟨none, none, none⟩).1.prevStateGeneration
      = some 1
    ∧ (setUrlHash (JsonValue.object JsonMembers.nil) 1 ⟨none, none, none⟩).1.prevStateString
        = some (encodeFragment (jsonStringify (JsonValue.object JsonMembers.nil))) :=
  c3_cursor_pair_discipline.2 (JsonValue.object JsonMembers.nil) 1 ⟨none, none, none⟩
    (by decide) (by decide)

/-- C9: when an inbound cycle takes the standard-form echo short
circuit, the early `return` leaves the whole binding state untouched —
in particular a `parseError` recorded by an earlier failed cycle is not
cleared, since the `parseError.value = undefined` line is skipped. -/
theorem c9_echo_preserves_state (redirect : Option String) (literalFragment : String)
    (st : BindingState)
    (h : (updateFromUrlHash redirect literalFragment st).2.2 = Outcome.echo) :
    updateFromUrlHash redirect literalFragment st = (st, [], Outcome.echo) :=
  classifyFragment_echo _ _ _ h

/-- C9, witness: an echo cycle on `#` with a stale error in the cell;
the error survives the successful echo cycle. -/
theorem c9_echo_preserves_state_witness :
    updateFromUrlHash none "#"
        ⟨some (String.mk [lbrace, rbrace]), none, some ErrKind.malformedFragment⟩
      = (⟨some (String.mk [lbrace, rbrace]), none, some ErrKind.malformedFragment⟩, [],
         Outcome.echo) :=
  c9_echo_preserves_state none "#"
    ⟨some (String.mk [lbrace, rbrace]), none, some ErrKind.malformedFragment⟩ (by decide)

/-- C10: a `redirect_fragment` query parameter with empty value makes
the effective fragment the bare `#`, which matches no classification
branch: the error cell is set to the malformed-fragment error and the
tree is untouched, instead of loading the empty state. -/
theorem c10_empty_redirect_malformed (literalFragment : String) (st : BindingState) :
    updateFromUrlHash (some "") literalFragment st
      = ({ st with parseError := some ErrKind.malformedFragment }, [],
         Outcome.failed ErrKind.malformedFragment) := rfl

/-!
Claim theorems: outbound short circuits, empty canonicalization, echo.
-/

/-- C4: if the generation matches the cached one, `setUrlHash` performs
nothing beyond the unconditional `json_url` strip; if the generation
differs but the fresh encoding equals `prevStateString`, only the
cached generation is updated and the URL hash is not mutated. -/
theorem c4_outbound_short_circuits :
    (∀ (v : JsonValue) (g : Nat) (st : BindingState),
       st.prevStateGeneration = some g →
       setUrlHash v g st = (st, [UrlEffect.stripJsonUrl]))
    ∧ ∀ (v : JsonValue) (g : Nat) (st : BindingState),
        ¬ st.prevStateGeneration = some g →
        st.prevStateString = some (encodeFragment (jsonStringify v)) →
        setUrlHash v g st
          = ({ st with prevStateGeneration := some g }, [UrlEffect.stripJsonUrl]) := by
  constructor
  · intro v g st h
    unfold setUrlHash
    rw [if_pos h]
  · intro v g st hg hs
    unfold setUrlHash
    rw [if_neg hg, if_pos hs]

/-- C4, witness: both short circuits at concrete inputs. -/
theorem c4_outbound_short_circuits_witness :
    setUrlHash (JsonValue.object JsonMembers.nil) 5 ⟨some "unrelated", some 5, none⟩
      = (⟨some "unrelated", some 5, none⟩, [UrlEffect.stripJsonUrl])
    ∧ setUrlHash (JsonValue.object JsonMembers.nil) 6 ⟨some "%7B%7D", some 5, none⟩
      = (⟨some "%7B%7D", some 6, none⟩, [UrlEffect.stripJsonUrl]) :=
  ⟨c4_outbound_short_circuits.1 (JsonValue.object JsonMembers.nil) 5
      ⟨some "unrelated", some 5, none⟩ (by decide),
   c4_outbound_short_circuits.2 (JsonValue.object JsonMembers.nil) 6
      ⟨some "%7B%7D", some 5, none⟩ (by decide) (by decide)⟩

/-- C5: serializing the empty object writes the fragment `#` (not
`#!\x7b\x7d`), while recording `%7B%7D` as the last-written encoding; and,
with no redirect fragment present, each of the literal fragments `''`,
`'#'`, `'#!'` is treated as the canonical encoding `#!\x7b\x7d` and decodes
to the empty object. -/
theorem c5_empty_canonicalization :
    (∀ (g : Nat) (st : BindingState),
       ¬ st.prevStateGeneration = some g →
       ¬ st.prevStateString
           = some (encodeFragment (jsonStringify (JsonValue.object JsonMembers.nil))) →
       setUrlHash (JsonValue.object JsonMembers.nil) g st
         = ({ st with
              prevStateGeneration := some g,
              prevStateString := some (encodeFragment
                (jsonStringify (JsonValue.object JsonMembers.nil))) },
            [UrlEffect.stripJsonUrl, UrlEffect.setHash "#"]))
    ∧ ∀ (f : String) (st : BindingState),
        (f = "" ∨ f = "#" ∨ f = "#!") →
        ¬ st.prevStateString = some (String.mk [lbrace, rbrace]) →
        updateFromUrlHash none f st
          = ({ st with
               prevStateString := some (String.mk [lbrace, rbrace]),
               parseError := none },
             [TreeOp.reset, TreeOp.restoreState (JsonValue.object JsonMembers.nil)],
             Outcome.success) := by
  constructor
  · intro g st hg hs
    unfold setUrlHash
    rw [if_neg hg, if_neg hs]
    rfl
  · intro f st hf hs
    have h1 : updateFromUrlHash none f st = standardRestore st [lbrace, rbrace] := by
      rcases hf with rfl | rfl | rfl <;> rfl
    rw [h1]
    unfold standardRestore
    rw [if_neg hs]
    rfl

/-- C5, witness: the empty object round at concrete inputs. -/
theorem c5_empty_canonicalization_witness :
    setUrlHash (JsonValue.object JsonMembers.nil) 3 ⟨none, none, none⟩
      = (⟨some (encodeFragment (jsonStringify (JsonValue.object JsonMembers.nil))),
          some 3, none⟩,
         [UrlEffect.stripJsonUrl, UrlEffect.setHash "#"])
    ∧ updateFromUrlHash none "#!" ⟨none, none, none⟩
      = (⟨some (String.mk [lbrace, rbrace]), none, none⟩,
         [TreeOp.reset, TreeOp.restoreState (JsonValue.object JsonMembers.nil)],
         Outcome.success) :=
  ⟨c5_empty_canonicalization.1 3 ⟨none, none, none⟩ (by decide) (by decide),
   c5_empty_canonicalization.2 "#!" ⟨none, none, none⟩ (Or.inr (Or.inr rfl)) (by decide)⟩

/-- The concrete state value `\x7b"a":1\x7d` used to exercise the echo path. -/
def c1Value : JsonValue :=
  JsonValue.object (JsonMembers.cons "a" (JsonValue.number 1) JsonMembers.nil)

/-- C1: evaluation of the code at the failing input.  A successful
outbound write of the state `\x7b"a":1\x7d` records the encoded string
`%7B%22a%22:1%7D` in `prevStateString` and writes the fragment
`#!%7B%22a%22:1%7D`; the inbound cycle on exactly that fragment decodes
it to `\x7b"a":1\x7d` before the comparison, the compared string differs
from the recorded one, and the cycle resets and restores the tree
instead of taking the echo short circuit. -/
theorem c1_echo_suppression_fails :
    (setUrlHash c1Value 1 ⟨none, none, none⟩).1.prevStateString = some "%7B%22a%22:1%7D"
    ∧ (setUrlHash c1Value 1 ⟨none, none, none⟩).2
        = [UrlEffect.stripJsonUrl, UrlEffect.setHash "#!%7B%22a%22:1%7D"]
    ∧ updateFromUrlHash none "#!%7B%22a%22:1%7D" (setUrlHash c1Value 1 ⟨none, none, none⟩).1
        = (⟨some (String.mk [lbrace, dquote, 'a', dquote, ':', '1', rbrace]), some 1, none⟩,
           [TreeOp.reset, TreeOp.restoreState c1Value], Outcome.success) :=
  ⟨by decide, by decide, by decide⟩

/-!
Debounce model.  The constructor (source lines 64-72) wires the tree's
change notifications through `debounce(() => this.setUrlHash(), delay)`
and registers `throttledSetUrlHash.cancel()` as a disposer.
-/

/-- Modelled from the spec: events driving the debounced outbound path
on the single cooperative timeline — a change notification carrying the
tree value's identifier at an instant, or disposal of the binding. -/
inductive DebEvent where
  | change (t : Nat) (v : Nat)
  | dispose (t : Nat)

/-- Modelled from the spec: the single-shot cancellable timer of the
trailing-edge debounce — the pending deadline (if armed), the current
tree value identifier, and whether the binding is still live. -/
structure DebMachine where
  pending : Option Nat
  cur : Nat
  live : Bool

/-- One event step: a timer whose deadline has passed fires first
(invoking `setUrlHash` at the deadline with the then-current value); a
change re-arms the single timer to `t + delay`; disposal cancels the
pending timer. -/
def debStep (delay : Nat) (m : DebMachine) (e : DebEvent) :
    DebMachine × List (Nat × Nat) :=
  match e with
  | .change t v =>
    if m.live then
      match m.pending with
      | some d =>
        if d ≤ t then (⟨some (t + delay), v, true⟩, [(d, m.cur)])
        else (⟨some (t + delay), v, true⟩, [])
      | none => (⟨some (t + delay), v, true⟩, [])
    else (m, [])
  | .dispose t =>
    match m.pending with
    | some d =>
      if d ≤ t then (⟨none, m.cur, false⟩, [(d, m.cur)])
      else (⟨none, m.cur, false⟩, [])
    | none => (⟨none, m.cur, false⟩, [])

def debRun (delay : Nat) : DebMachine → List DebEvent → List (Nat × Nat) × DebMachine
  | m, [] => ([], m)
  | m, e :: es =>
    ((debStep delay m e).2 ++ (debRun delay (debStep delay m e).1 es).1,
      (debRun delay (debStep delay m e).1 es).2)

/-- Full run: process the events, then let any still-pending timer fire
(the binding was not disposed, so the trailing invocation executes). -/
def runDebounce (delay : Nat) (events : List DebEvent) : List (Nat × Nat) :=
  (debRun delay ⟨none, 0, true⟩ events).1 ++
    (match (debRun delay ⟨none, 0, true⟩ events).2.pending with
     | some d => [(d, (debRun delay ⟨none, 0, true⟩ events).2.cur)]
     | none => [])

/-- `chainOk delay tprev l`: each change time is at least the previous
one and strictly inside the previous change's delay window. -/
def chainOk (delay : Nat) : Nat → List (Nat × Nat) → Bool
  | _, [] => true
  | tprev, (t, _) :: rest => (tprev ≤ t && t < tprev + delay) && chainOk delay t rest

def lastOf : (Nat × Nat) → List (Nat × Nat) → (Nat × Nat)
  | p, [] => p
  | _, q :: rest => lastOf q rest

theorem debRun_cons (delay : Nat) (m : DebMachine) (e : DebEvent) (es : List DebEvent) :
    debRun delay m (e :: es)
      = ((debStep delay m e).2 ++ (debRun delay (debStep delay m e).1 es).1,
         (debRun delay (debStep delay m e).1 es).2) := rfl

theorem debRun_chain (delay : Nat) (rest : List (Nat × Nat)) :
    ∀ t v, chainOk delay t rest = true →
      debRun delay ⟨some (t + delay), v, true⟩
          (rest.map (fun p => DebEvent.change p.1 p.2))
        = ([], ⟨some ((lastOf (t, v) rest).1 + delay), (lastOf (t, v) rest).2, true⟩) := by
  induction rest with
  | nil => intro t v _; rfl
  | cons q rest ih =>
    intro t v hc
    obtain ⟨t2, v2⟩ := q
    simp only [chainOk, Bool.and_eq_true, decide_eq_true_eq] at hc
    obtain ⟨⟨hle, hlt⟩, hrest⟩ := hc
    have hnot : ¬ t + delay ≤ t2 := by omega
    have hstep : debStep delay ⟨some (t + delay), v, true⟩ (DebEvent.change t2 v2)
        = (⟨some (t2 + delay), v2, true⟩, []) := by
      simp [debStep, hnot]
    rw [List.map_cons, debRun_cons, hstep]
    simp only [List.nil_append]
    rw [ih t2 v2 hrest]
    rfl

theorem debRun_append (delay : Nat) (es1 es2 : List DebEvent) (m : DebMachine) :
    debRun delay m (es1 ++ es2)
      = ((debRun delay m es1).1 ++ (debRun delay (debRun delay m es1).2 es2).1,
         (debRun delay (debRun delay m es1).2 es2).2) := by
  induction es1 generalizing m with
  | nil => simp [debRun]
  | cons e es ih =>
    rw [List.cons_append, debRun_cons, debRun_cons, ih (debStep delay m e).1]
    simp [List.append_assoc]

/-- C8: N change notifications (N at least 1) arriving within one
another's delay windows produce exactly one `setUrlHash` invocation,
at the last change's time plus the delay, with the value current at
that moment being the last change's value; and appending a disposal
before that deadline cancels the pending invocation, so no call occurs
at all. -/
theorem c8_debounce_collapsing (delay t1 v1 : Nat) (rest : List (Nat × Nat))
    (h : chainOk delay t1 rest = true) :
    runDebounce delay (((t1, v1) :: rest).map (fun p => DebEvent.change p.1 p.2))
      = [((lastOf (t1, v1) rest).1 + delay, (lastOf (t1, v1) rest).2)]
    ∧ ∀ td, td < (lastOf (t1, v1) rest).1 + delay →
        runDebounce delay
            ((((t1, v1) :: rest).map (fun p => DebEvent.change p.1 p.2))
              ++ [DebEvent.dispose td])
          = [] := by
  have hstep1 : debStep delay ⟨none, 0, true⟩ (DebEvent.change t1 v1)
      = (⟨some (t1 + delay), v1, true⟩, []) := by
    simp [debStep]
  have hrun : debRun delay ⟨none, 0, true⟩
      (((t1, v1) :: rest).map (fun p => DebEvent.change p.1 p.2))
      = ([], ⟨some ((lastOf (t1, v1) rest).1 + delay), (lastOf (t1, v1) rest).2, true⟩) := by
    rw [List.map_cons, debRun_cons, hstep1]
    simp only [List.nil_append]
    rw [debRun_chain delay rest t1 v1 h]
  constructor
  · unfold runDebounce
    rw [hrun]
    rfl
  · intro td htd
    have hnot : ¬ (lastOf (t1, v1) rest).1 + delay ≤ td := by omega
    have hstep2 : debStep delay
        ⟨some ((lastOf (t1, v1) rest).1 + delay), (lastOf (t1, v1) rest).2, true⟩
        (DebEvent.dispose td)
        = (⟨none, (lastOf (t1, v1) rest).2, false⟩, []) := by
      simp [debStep, hnot]
    unfold runDebounce
    rw [debRun_append, hrun]
    simp only [debRun_cons, hstep2]
    rfl

/-- C8, witness: two changes 100 ms apart with a 200 ms window collapse
to one invocation at 300 ms carrying the second value; disposing at
250 ms cancels it. -/
theorem c8_debounce_collapsing_witness :
    runDebounce 200 ([(0, 1), (100, 2)].map (fun p => DebEvent.change p.1 p.2))
      = [(300, 2)]
    ∧ runDebounce 200 (([(0, 1), (100, 2)].map (fun p => DebEvent.change p.1 p.2))
        ++ [DebEvent.dispose 250])
      = [] :=
  ⟨(c8_debounce_collapsing 200 0 1 [(100, 2)] (by decide)).1,
   (c8_debounce_collapsing 200 0 1 [(100, 2)] (by decide)).2 250 (by decide)⟩

/-!
Round-trip of the fragment encoding: `decodeURIComponent` inverts
`encodeFragment` on ASCII strings.
-/

def allAscii (l : List Char) : Bool := l.all (fun c => c.toNat < 128)

/-- Per-character form of `encodeFragmentChars` on ASCII input: special
characters and characters escaped by `encodeURI` become `%XX`, the rest
pass through. -/
def fragEncChar (c : Char) : List Char :=
  if isSpecialChar c then pctEncodeByte c.toNat
  else if encodeURIUnescaped c then [c]
  else pctEncodeByte c.toNat

theorem hexVal_hexDigitChar (n : Nat) (h : n < 16) :
    hexVal (hexDigitChar n) = some n := by
  interval_cases n <;> decide

theorem isSpecialChar_hexDigitChar (n : Nat) (h : n < 16) :
    isSpecialChar (hexDigitChar n) = false := by
  interval_cases n <;> decide

theorem hexDigitChar_ascii (n : Nat) (h : n < 16) :
    (hexDigitChar n).toNat < 128 := by
  interval_cases n <;> decide

theorem special_implies_unescaped (c : Char) (h : isSpecialChar c = true) :
    encodeURIUnescaped c = true := by
  simp only [isSpecialChar, Bool.or_eq_true, decide_eq_true_eq] at h
  rcases h with ((((((h | h) | h) | h) | h) | h) | h) <;> subst h <;> decide

theorem unescaped_ne_pct (c : Char) (h : encodeURIUnescaped c = true) : ¬ c = '%' := by
  intro he
  subst he
  exact absurd h (by decide)

theorem replaceSpecialChars_append (a b : List Char) :
    replaceSpecialChars (a ++ b) = replaceSpecialChars a ++ replaceSpecialChars b := by
  simp [replaceSpecialChars]

theorem replaceSpecialChars_pct (b : Nat) (h : b < 256) :
    replaceSpecialChars (pctEncodeByte b) = pctEncodeByte b := by
  simp only [pctEncodeByte, replaceSpecialChars, List.map_cons, List.map_nil]
  rw [if_neg (by decide : ¬ isSpecialChar '%' = true),
    if_neg (by rw [isSpecialChar_hexDigitChar (b / 16) (by omega)]; simp),
    if_neg (by rw [isSpecialChar_hexDigitChar (b % 16) (by omega)]; simp)]
  simp

theorem encodeURIChars_cons (c : Char) (l : List Char) :
    encodeURIChars (c :: l) = encodeURIChar c ++ encodeURIChars l := by
  simp [encodeURIChars]

theorem encodeFragmentChars_nil : encodeFragmentChars [] = [] := rfl

theorem encodeFragmentChars_cons (c : Char) (l : List Char) (h : c.toNat < 128) :
    encodeFragmentChars (c :: l) = fragEncChar c ++ encodeFragmentChars l := by
  unfold encodeFragmentChars
  rw [encodeURIChars_cons, replaceSpecialChars_append]
  congr 1
  unfold encodeURIChar fragEncChar
  by_cases hu : encodeURIUnescaped c = true
  · rw [if_pos hu]
    by_cases hs : isSpecialChar c = true
    · rw [if_pos hs]
      simp [replaceSpecialChars, hs]
    · rw [if_neg hs, if_pos hu]
      simp [replaceSpecialChars, hs]
  · rw [if_neg hu]
    have hs : ¬ isSpecialChar c = true := fun hs => hu (special_implies_unescaped c hs)
    rw [if_neg hs, if_neg hu]
    have hb : utf8Bytes c.toNat = [c.toNat] := by
      unfold utf8Bytes
      rw [if_pos h]
    rw [hb]
    simp only [List.map_cons, List.map_nil, List.flatten_cons, List.flatten_nil,
      List.append_nil]
    exact replaceSpecialChars_pct c.toNat (by omega)

theorem decodeChars_pct (b : Nat) (hb : b < 128) (l : List Char) :
    decodeChars (pctEncodeByte b ++ l)
      = (decodeChars l).map (fun r => Char.ofNat b :: r) := by
  show decodeChars ('%' :: hexDigitChar (b / 16) :: hexDigitChar (b % 16) :: l) = _
  conv_lhs => unfold decodeChars
  rw [if_pos rfl]
  show (match hexVal (hexDigitChar (b / 16)), hexVal (hexDigitChar (b % 16)) with
    | some a, some b2 =>
      if 16 * a + b2 < 128 then
        (decodeChars l).map (fun r => Char.ofNat (16 * a + b2) :: r)
      else none
    | _, _ => none) = _
  rw [hexVal_hexDigitChar (b / 16) (by omega), hexVal_hexDigitChar (b % 16) (by omega)]
  show (if 16 * (b / 16) + b % 16 < 128 then
      (decodeChars l).map (fun r => Char.ofNat (16 * (b / 16) + b % 16) :: r)
    else none) = _
  have hbr : 16 * (b / 16) + b % 16 = b := by omega
  rw [hbr, if_pos hb]

theorem decodeChars_fragEnc (c : Char) (l : List Char) (h : c.toNat < 128) :
    decodeChars (fragEncChar c ++ l)
      = (decodeChars l).map (fun r => c :: r) := by
  unfold fragEncChar
  by_cases hs : isSpecialChar c = true
  · rw [if_pos hs, decodeChars_pct c.toNat h l, Char.ofNat_toNat]
  · rw [if_neg hs]
    by_cases hu : encodeURIUnescaped c = true
    · rw [if_pos hu]
      show decodeChars (c :: l) = _
      conv_lhs => unfold decodeChars
      rw [if_neg (unescaped_ne_pct c hu)]
    · rw [if_neg hu, decodeChars_pct c.toNat h l, Char.ofNat_toNat]

/-- `decodeURIComponent` inverts `encodeFragment` on ASCII strings. -/
theorem decodeChars_encodeFragmentChars (l : List Char) (h : allAscii l = true) :
    decodeChars (encodeFragmentChars l) = some l := by
  induction l with
  | nil => rfl
  | cons c l ih =>
    simp only [allAscii, List.all_cons, Bool.and_eq_true, decide_eq_true_eq] at h
    rw [encodeFragmentChars_cons c l h.1, decodeChars_fragEnc c _ h.1,
      ih (by simp [allAscii, h.2])]
    rfl

theorem allAscii_append (a b : List Char) :
    allAscii (a ++ b) = (allAscii a && allAscii b) := by
  simp [allAscii, List.all_append]

theorem allAscii_pct (b : Nat) (h : b < 256) : allAscii (pctEncodeByte b) = true := by
  simp only [pctEncodeByte, allAscii, List.all_cons, List.all_nil,
    Bool.and_eq_true, decide_eq_true_eq]
  exact ⟨by decide, hexDigitChar_ascii (b / 16) (by omega),
    ⟨hexDigitChar_ascii (b % 16) (by omega), trivial⟩⟩

theorem allAscii_fragEncChar (c : Char) (h : c.toNat < 128) :
    allAscii (fragEncChar c) = true := by
  unfold fragEncChar
  by_cases hs : isSpecialChar c = true
  · rw [if_pos hs]; exact allAscii_pct c.toNat (by omega)
  · rw [if_neg hs]
    by_cases hu : encodeURIUnescaped c = true
    · rw [if_pos hu]; simp [allAscii, h]
    · rw [if_neg hu]; exact allAscii_pct c.toNat (by omega)

theorem allAscii_encodeFragmentChars (l : List Char) (h : allAscii l = true) :
    allAscii (encodeFragmentChars l) = true := by
  induction l with
  | nil => rfl
  | cons c l ih =>
    simp only [allAscii, List.all_cons, Bool.and_eq_true, decide_eq_true_eq] at h
    rw [encodeFragmentChars_cons c l h.1, allAscii_append,
      allAscii_fragEncChar c h.1, ih (by simp [allAscii, h.2])]
    rfl

/-!
Dispatch lemmas: how `updateFromUrlHash` routes encoded payloads into
the standard and legacy branches, decoding once, or twice under
redirect recovery.
-/

theorem listStartsWith_nil (l : List Char) : listStartsWith l [] = true := by
  cases l <;> rfl

theorem effectiveFragment_some (p : String) (lit : String) :
    effectiveFragment (some p) lit = "#" ++ p := rfl

theorem effectiveFragment_none (f : String) (h1 : f.data ≠ []) (h2 : f.data ≠ ['#'])
    (h3 : f.data ≠ ['#', '!']) : effectiveFragment none f = f := by
  unfold effectiveFragment
  rw [if_neg (by simp [checkRedirectFragment])]
  have hc : ¬ ((f = "" || f = "#" || f = "#!") = true) := by
    simp only [Bool.or_eq_true, decide_eq_true_eq]
    push_neg
    exact ⟨⟨fun he => h1 (by rw [he]), fun he => h2 (by rw [he])⟩,
      fun he => h3 (by rw [he])⟩
  rw [if_neg hc]

theorem string_hash_append (l : List Char) :
    ("#" ++ String.mk l) = String.mk ('#' :: l) := rfl

theorem fragEncChar_lbrace : fragEncChar lbrace = ['%', '7', 'B'] := by decide

theorem fragEncChar_pct : fragEncChar '%' = ['%', '2', '5'] := by decide

/-- Single decode, standard branch: with no redirect recovery, the
fragment `#!` + `encodeFragment(text)` decodes once back to `text` and
is handled by the standard-branch body. -/
theorem standard_single_decode (t' : List Char) (st : BindingState)
    (ha : allAscii (lbrace :: t') = true) :
    updateFromUrlHash none (String.mk ('#' :: '!' :: encodeFragmentChars (lbrace :: t'))) st
      = standardRestore st (lbrace :: t') := by
  have henc : encodeFragmentChars (lbrace :: t')
      = '%' :: '7' :: 'B' :: encodeFragmentChars t' := by
    rw [encodeFragmentChars_cons lbrace t' (by decide), fragEncChar_lbrace]
    rfl
  show classifyFragment false
      (effectiveFragment none (String.mk ('#' :: '!' :: encodeFragmentChars (lbrace :: t'))))
      st = _
  rw [effectiveFragment_none _ (by simp) (by rw [show (String.mk ('#' :: '!' :: encodeFragmentChars (lbrace :: t'))).data = _ from rfl]; simp) (by rw [show (String.mk ('#' :: '!' :: encodeFragmentChars (lbrace :: t'))).data = _ from rfl, henc]; simp)]
  have hr : isRemoteFragment (String.mk ('#' :: '!' :: encodeFragmentChars (lbrace :: t')))
      = false := by rw [henc]; rfl
  have hl3 : listStartsWith
      (String.mk ('#' :: '!' :: encodeFragmentChars (lbrace :: t'))).data
      ['#', '!', '+'] = false := by
    rw [show (String.mk ('#' :: '!' :: encodeFragmentChars (lbrace :: t'))).data
      = '#' :: '!' :: encodeFragmentChars (lbrace :: t') from rfl, henc]
    rfl
  have hl2 : listStartsWith
      (String.mk ('#' :: '!' :: encodeFragmentChars (lbrace :: t'))).data
      ['#', '!'] = true := rfl
  have hdp : decodePayload false
      ((String.mk ('#' :: '!' :: encodeFragmentChars (lbrace :: t'))).data.drop 2)
      = some (lbrace :: t') := by
    show decodePayload false (encodeFragmentChars (lbrace :: t')) = _
    unfold decodePayload
    rw [decodeChars_encodeFragmentChars _ ha]
    rfl
  unfold classifyFragment
  rw [if_neg (by rw [hr]; simp), if_neg (by rw [hl3]; simp), if_pos (by rw [hl2]),
    hdp]

/-- Double decode, standard branch: under redirect recovery, a payload
that was percent-encoded twice decodes back to the original text. -/
theorem standard_double_decode (t' : List Char) (st : BindingState) (lit : String)
    (ha : allAscii (lbrace :: t') = true) :
    updateFromUrlHash
        (some (String.mk ('!' :: encodeFragmentChars (encodeFragmentChars (lbrace :: t')))))
        lit st
      = standardRestore st (lbrace :: t') := by
  have henc : encodeFragmentChars (lbrace :: t')
      = '%' :: '7' :: 'B' :: encodeFragmentChars t' := by
    rw [encodeFragmentChars_cons lbrace t' (by decide), fragEncChar_lbrace]
    rfl
  have ha2 : allAscii (encodeFragmentChars (lbrace :: t')) = true :=
    allAscii_encodeFragmentChars _ ha
  have he2 : encodeFragmentChars (encodeFragmentChars (lbrace :: t'))
      = '%' :: '2' :: '5' :: encodeFragmentChars ('7' :: 'B' :: encodeFragmentChars t') := by
    rw [henc, encodeFragmentChars_cons '%' _ (by decide), fragEncChar_pct]
    rfl
  show classifyFragment true
      (effectiveFragment
        (some (String.mk ('!' :: encodeFragmentChars (encodeFragmentChars (lbrace :: t')))))
        lit) st = _
  rw [effectiveFragment_some, string_hash_append]
  have hr : isRemoteFragment
      (String.mk ('#' :: '!' :: encodeFragmentChars (encodeFragmentChars (lbrace :: t'))))
      = false := by rw [he2]; rfl
  have hl3 : listStartsWith
      (String.mk ('#' :: '!' :: encodeFragmentChars (encodeFragmentChars (lbrace :: t')))).data
      ['#', '!', '+'] = false := by
    rw [show (String.mk ('#' :: '!' :: encodeFragmentChars
        (encodeFragmentChars (lbrace :: t')))).data
      = '#' :: '!' :: encodeFragmentChars (encodeFragmentChars (lbrace :: t')) from rfl, he2]
    rfl
  have hl2 : listStartsWith
      (String.mk ('#' :: '!' :: encodeFragmentChars (encodeFragmentChars (lbrace :: t')))).data
      ['#', '!'] = true := rfl
  have hdp : decodePayload true
      ((String.mk ('#' :: '!' :: encodeFragmentChars
        (encodeFragmentChars (lbrace :: t')))).data.drop 2)
      = some (lbrace :: t') := by
    show decodePayload true (encodeFragmentChars (encodeFragmentChars (lbrace :: t'))) = _
    unfold decodePayload
    rw [decodeChars_encodeFragmentChars _ ha2]
    show decodeChars (encodeFragmentChars (lbrace :: t')) = _
    rw [decodeChars_encodeFragmentChars _ ha]
  unfold classifyFragment
  rw [if_neg (by rw [hr]; simp), if_neg (by rw [hl3]; simp), if_pos (by rw [hl2]), hdp]

/-- Single decode, legacy branch. -/
theorem legacy_single_decode (t : List Char) (st : BindingState)
    (ha : allAscii t = true) :
    updateFromUrlHash none (String.mk ('#' :: '!' :: '+' :: encodeFragmentChars t)) st
      = legacyRestore st t := by
  show classifyFragment false
      (effectiveFragment none (String.mk ('#' :: '!' :: '+' :: encodeFragmentChars t)))
      st = _
  rw [effectiveFragment_none _ (by simp) (by simp [show (String.mk ('#' :: '!' :: '+' :: encodeFragmentChars t)).data = '#' :: '!' :: '+' :: encodeFragmentChars t from rfl]) (by simp [show (String.mk ('#' :: '!' :: '+' :: encodeFragmentChars t)).data = '#' :: '!' :: '+' :: encodeFragmentChars t from rfl])]
  have hdp : decodePayload false
      ((String.mk ('#' :: '!' :: '+' :: encodeFragmentChars t)).data.drop 3)
      = some t := by
    show decodePayload false (encodeFragmentChars t) = _
    unfold decodePayload
    rw [decodeChars_encodeFragmentChars _ ha]
    rfl
  have hr : isRemoteFragment (String.mk ('#' :: '!' :: '+' :: encodeFragmentChars t))
      = false := rfl
  have hl3 : listStartsWith
      (String.mk ('#' :: '!' :: '+' :: encodeFragmentChars t)).data
      ['#', '!', '+'] = true := by
    simp [listStartsWith, listStartsWith_nil]
  unfold classifyFragment
  rw [if_neg (by rw [hr]; simp), if_pos (by rw [hl3]), hdp]

/-- Double decode, legacy branch, under redirect recovery. -/
theorem legacy_double_decode (t : List Char) (st : BindingState) (lit : String)
    (ha : allAscii t = true) :
    updateFromUrlHash
        (some (String.mk ('!' :: '+' :: encodeFragmentChars (encodeFragmentChars t))))
        lit st
      = legacyRestore st t := by
  have ha2 : allAscii (encodeFragmentChars t) = true := allAscii_encodeFragmentChars _ ha
  show classifyFragment true
      (effectiveFragment
        (some (String.mk ('!' :: '+' :: encodeFragmentChars (encodeFragmentChars t))))
        lit) st = _
  rw [effectiveFragment_some, string_hash_append]
  have hdp : decodePayload true
      ((String.mk ('#' :: '!' :: '+' :: encodeFragmentChars
        (encodeFragmentChars t))).data.drop 3)
      = some t := by
    show decodePayload true (encodeFragmentChars (encodeFragmentChars t)) = _
    unfold decodePayload
    rw [decodeChars_encodeFragmentChars _ ha2]
    show decodeChars (encodeFragmentChars t) = _
    rw [decodeChars_encodeFragmentChars _ ha]
  have hr : isRemoteFragment
      (String.mk ('#' :: '!' :: '+' :: encodeFragmentChars (encodeFragmentChars t)))
      = false := rfl
  have hl3 : listStartsWith
      (String.mk ('#' :: '!' :: '+' :: encodeFragmentChars (encodeFragmentChars t))).data
      ['#', '!', '+'] = true := by
    simp [listStartsWith, listStartsWith_nil]
  unfold classifyFragment
  rw [if_neg (by rw [hr]; simp), if_pos (by rw [hl3]), hdp]

/-- C7: in both the legacy `#!+` and the standard `#!` branch the
payload is percent-decoded exactly once without redirect recovery (a
singly-encoded payload reaches the branch body as the original text)
and exactly twice with recovery (a doubly-encoded payload reaches the
branch body as the original text); and a doubly-encoded payload without
recovery is decoded only once, so the JSON parse fails. -/
theorem c7_conditional_double_decode :
    (∀ (t' : List Char) (st : BindingState), allAscii (lbrace :: t') = true →
       updateFromUrlHash none
           (String.mk ('#' :: '!' :: encodeFragmentChars (lbrace :: t'))) st
         = standardRestore st (lbrace :: t'))
    ∧ (∀ (t' : List Char) (st : BindingState) (lit : String),
        allAscii (lbrace :: t') = true →
        updateFromUrlHash
            (some (String.mk ('!' :: encodeFragmentChars
              (encodeFragmentChars (lbrace :: t'))))) lit st
          = standardRestore st (lbrace :: t'))
    ∧ (∀ (t : List Char) (st : BindingState), allAscii t = true →
        updateFromUrlHash none
            (String.mk ('#' :: '!' :: '+' :: encodeFragmentChars t)) st
          = legacyRestore st t)
    ∧ (∀ (t : List Char) (st : BindingState) (lit : String), allAscii t = true →
        updateFromUrlHash
            (some (String.mk ('!' :: '+' :: encodeFragmentChars
              (encodeFragmentChars t)))) lit st
          = legacyRestore st t)
    ∧ (updateFromUrlHash none "#!%257B%2522a%2522:1%257D" ⟨none, none, none⟩).2.2
        = Outcome.failed ErrKind.jsonError :=
  ⟨fun t' st ha => standard_single_decode t' st ha,
   fun t' st lit ha => standard_double_decode t' st lit ha,
   fun t st ha => legacy_single_decode t st ha,
   fun t st lit ha => legacy_double_decode t st lit ha,
   by decide⟩

/-- C7, witness: the standard branch at the concrete payload
`\x7b"a":1\x7d`, singly encoded with no recovery. -/
theorem c7_conditional_double_decode_witness :
    updateFromUrlHash none
        (String.mk ('#' :: '!' :: encodeFragmentChars
          (lbrace :: [dquote, 'a', dquote, ':', '1', rbrace]))) ⟨none, none, none⟩
      = standardRestore ⟨none, none, none⟩
          (lbrace :: [dquote, 'a', dquote, ':', '1', rbrace]) :=
  c7_conditional_double_decode.1 [dquote, 'a', dquote, ':', '1', rbrace]
    ⟨none, none, none⟩ (by decide)

/-!
Round-trip of the JSON layer: parsing inverts serialization on values
whose strings avoid the unsafe characters.
-/

/-- A safe character: ASCII, not a quote, not a backslash. -/
def safeChar (c : Char) : Bool := c.toNat < 128 && !(c = dquote) && !(c = bslash)

def safeString (s : String) : Bool := s.data.all safeChar

mutual
/-- A JSON value with no unsafe characters in its strings and keys. -/
def safeJson : JsonValue → Bool
  | .null => true
  | .boolean _ => true
  | .number _ => true
  | .string s => safeString s
  | .array xs => safeList xs
  | .object ms => safeMembers ms
def safeList : JsonList → Bool
  | .nil => true
  | .cons v tl => safeJson v && safeList tl
def safeMembers : JsonMembers → Bool
  | .nil => true
  | .cons k v tl => safeString k && safeJson v && safeMembers tl
end

theorem escapeStringChars_safe (l : List Char) (h : l.all safeChar = true) :
    escapeStringChars l = l := by
  induction l with
  | nil => rfl
  | cons c l ih =>
    simp only [List.all_cons, Bool.and_eq_true] at h
    have hc : ¬ (c = dquote || c = bslash) = true := by
      simp only [safeChar, Bool.and_eq_true, Bool.not_eq_eq_eq_not, Bool.not_true,
        decide_eq_false_iff_not] at h
      simp [h.1.1.2, h.1.2]
    simp only [escapeStringChars, List.map_cons, List.flatten_cons, if_neg hc]
    simpa [escapeStringChars] using ih h.2

theorem parseStringBody_safe (s : List Char) (h : s.all safeChar = true)
    (rest : List Char) :
    parseStringBody (s ++ dquote :: rest) = some (s, rest) := by
  induction s with
  | nil =>
    show parseStringBody (dquote :: rest) = _
    unfold parseStringBody
    rw [if_pos rfl]
  | cons c s ih =>
    simp only [List.all_cons, Bool.and_eq_true] at h
    have h1 : ¬ c = dquote := by
      have := h.1
      simp only [safeChar, Bool.and_eq_true, Bool.not_eq_eq_eq_not, Bool.not_true,
        decide_eq_false_iff_not] at this
      exact this.1.2
    have h2 : ¬ c = bslash := by
      have := h.1
      simp only [safeChar, Bool.and_eq_true, Bool.not_eq_eq_eq_not, Bool.not_true,
        decide_eq_false_iff_not] at this
      exact this.2
    show parseStringBody (c :: (s ++ dquote :: rest)) = _
    unfold parseStringBody
    rw [if_neg h1, if_neg h2, ih h.2]
    rfl

theorem parseDigits_stop (l : List Char) (acc : Nat) (h : headNotDigit l = true) :
    parseDigits l acc = (acc, l) := by
  cases l with
  | nil => rfl
  | cons c rest =>
    simp only [headNotDigit, Bool.not_eq_eq_eq_not, Bool.not_true,
      decide_eq_false_iff_not] at h
    unfold parseDigits
    rw [if_neg (by simpa [isDigitChar] using h)]

theorem isDigitChar_digitChar (n : Nat) (h : n < 10) :
    isDigitChar (digitChar n) = true := by
  simp only [isDigitChar, digitChar, Bool.and_eq_true, decide_eq_true_eq]
  rw [char_toNat_ofNat (48 + n) (by omega)]
  omega

theorem digitChar_toNat (n : Nat) (h : n < 10) : (digitChar n).toNat = 48 + n := by
  unfold digitChar
  exact char_toNat_ofNat (48 + n) (by omega)

theorem natDigits_cons (n : Nat) :
    ∃ c t, natDigits n = c :: t ∧ isDigitChar c = true := by
  induction n using Nat.strong_induction_on with
  | _ n ih =>
    rw [natDigits_eq]
    by_cases h10 : n < 10
    · rw [if_pos h10]
      exact ⟨digitChar n, [], rfl, isDigitChar_digitChar n h10⟩
    · rw [if_neg h10]
      obtain ⟨c, t, hct, hc⟩ := ih (n / 10) (Nat.div_lt_self (by omega) (by omega))
      exact ⟨c, t ++ [digitChar (n % 10)], by rw [hct]; rfl, hc⟩

theorem parseDigits_natDigits (n : Nat) : ∀ (acc : Nat) (rest : List Char),
    parseDigits (natDigits n ++ rest) acc
      = parseDigits rest (acc * 10 ^ (natDigits n).length + n) := by
  induction n using Nat.strong_induction_on with
  | _ n ih =>
    intro acc rest
    rw [natDigits_eq]
    by_cases h10 : n < 10
    · rw [if_pos h10]
      show parseDigits (digitChar n :: rest) acc = _
      conv_lhs => unfold parseDigits
      rw [if_pos (isDigitChar_digitChar n h10), digitChar_toNat n h10]
      have harg : 10 * acc + (48 + n - 48) = acc * 10 ^ ([digitChar n].length) + n := by
        simp only [List.length_singleton, pow_one]
        omega
      rw [harg]
    · rw [if_neg h10]
      have hd : n / 10 < n := Nat.div_lt_self (by omega) (by omega)
      rw [List.append_assoc, ih (n / 10) hd acc ([digitChar (n % 10)] ++ rest)]
      show parseDigits (digitChar (n % 10) :: rest) _ = _
      conv_lhs => unfold parseDigits
      rw [if_pos (isDigitChar_digitChar _ (by omega)), digitChar_toNat _ (by omega)]
      have harg : 10 * (acc * 10 ^ (natDigits (n / 10)).length + n / 10)
          + (48 + n % 10 - 48)
          = acc * 10 ^ ((natDigits (n / 10) ++ [digitChar (n % 10)]).length) + n := by
        have h1 : (natDigits (n / 10) ++ [digitChar (n % 10)]).length
            = (natDigits (n / 10)).length + 1 := by simp
        have he : 48 + n % 10 - 48 = n % 10 := by omega
        rw [h1, pow_succ, he]
        have key : 10 * (acc * 10 ^ (natDigits (n / 10)).length + n / 10) + n % 10
            = acc * (10 ^ (natDigits (n / 10)).length * 10)
              + (10 * (n / 10) + n % 10) := by ring
        rw [key, Nat.div_add_mod n 10]
      rw [harg]

theorem digit_not_char (c x : Char) (hc : isDigitChar c = true)
    (hx : isDigitChar x = false) : ¬ c = x := by
  intro he
  rw [he] at hc
  rw [hc] at hx
  exact absurd hx (by simp)

theorem parseNumberChars_intChars (n : Int) (rest : List Char)
    (h : headNotDigit rest = true) :
    parseNumberChars (intChars n ++ rest) = some (n, rest) := by
  by_cases hneg : n < 0
  · have hic : intChars n = '-' :: natDigits (-n).toNat := by
      unfold intChars
      rw [if_pos hneg]
    rw [hic, List.cons_append]
    simp only [parseNumberChars]
    rw [if_pos trivial]
    have hnd : headNotDigit (natDigits (-n).toNat ++ rest) = false := by
      obtain ⟨c, t, hct, hc⟩ := natDigits_cons (-n).toNat
      rw [hct]
      show headNotDigit (c :: (t ++ rest)) = false
      simp [headNotDigit, hc]
    rw [if_neg (by rw [hnd]; simp)]
    rw [parseDigits_natDigits ((-n).toNat) 0 rest, parseDigits_stop rest _ h]
    have harg : -(((0 * 10 ^ (natDigits (-n).toNat).length + (-n).toNat : Nat)) : Int)
        = n := by
      simp only [Nat.zero_mul, Nat.zero_add]
      omega
    rw [harg]
  · have hic : intChars n = natDigits n.toNat := by
      unfold intChars
      rw [if_neg hneg]
    obtain ⟨c, t, hct, hc⟩ := natDigits_cons n.toNat
    rw [hic, hct, List.cons_append]
    simp only [parseNumberChars]
    rw [if_neg (digit_not_char c '-' hc (by decide)), if_pos hc]
    rw [← List.cons_append, ← hct,
      parseDigits_natDigits n.toNat 0 rest, parseDigits_stop rest _ h]
    have harg : (((0 * 10 ^ (natDigits n.toNat).length + n.toNat : Nat)) : Int) = n := by
      simp only [Nat.zero_mul, Nat.zero_add]
      omega
    rw [harg]

theorem safe_ascii (l : List Char) (h : l.all safeChar = true) : allAscii l = true := by
  simp only [allAscii, List.all_eq_true, decide_eq_true_eq] at *
  intro c hc
  have hsc := h c hc
  simp only [safeChar, Bool.and_eq_true, decide_eq_true_eq] at hsc
  exact hsc.1.1

theorem natDigits_ascii (n : Nat) : allAscii (natDigits n) = true := by
  induction n using Nat.strong_induction_on with
  | _ n ih =>
    rw [natDigits_eq]
    by_cases h10 : n < 10
    · rw [if_pos h10]
      simp [allAscii, digitChar_toNat n h10]
      omega
    · rw [if_neg h10, allAscii_append,
        ih (n / 10) (Nat.div_lt_self (by omega) (by omega))]
      simp [allAscii, digitChar_toNat (n % 10) (by omega)]
      omega

theorem intChars_ascii (n : Int) : allAscii (intChars n) = true := by
  unfold intChars
  by_cases hneg : n < 0
  · rw [if_pos hneg]
    simp only [allAscii, List.all_cons, Bool.and_eq_true, decide_eq_true_eq]
    exact ⟨by decide, natDigits_ascii (-n).toNat⟩
  · rw [if_neg hneg]
    exact natDigits_ascii n.toNat

mutual
theorem stringify_ascii (v : JsonValue) (h : safeJson v = true) :
    allAscii (jsonStringifyChars v) = true := by
  cases v with
  | null => decide
  | boolean b => cases b <;> decide
  | number n => exact intChars_ascii n
  | string s =>
    have hss : safeString s = true := by simpa [safeJson] using h
    show allAscii (dquote :: (escapeStringChars s.data ++ [dquote])) = true
    rw [escapeStringChars_safe s.data hss]
    simp only [allAscii, List.all_cons, List.all_append, Bool.and_eq_true,
      decide_eq_true_eq]
    refine ⟨by decide, ?_, by decide⟩
    have := safe_ascii s.data hss
    simpa [allAscii] using this
  | array xs =>
    have hsl : safeList xs = true := by simpa [safeJson] using h
    show allAscii ('[' :: (stringifyElems xs ++ [']'])) = true
    simp only [allAscii, List.all_cons, List.all_append, Bool.and_eq_true,
      decide_eq_true_eq]
    refine ⟨by decide, ?_, by decide⟩
    have := stringifyElems_ascii xs hsl
    simpa [allAscii] using this
  | object ms =>
    have hsm : safeMembers ms = true := by simpa [safeJson] using h
    show allAscii (lbrace :: (stringifyMembers ms ++ [rbrace])) = true
    simp only [allAscii, List.all_cons, List.all_append, Bool.and_eq_true,
      decide_eq_true_eq]
    refine ⟨by decide, ?_, by decide⟩
    have := stringifyMembers_ascii ms hsm
    simpa [allAscii] using this
theorem stringifyElems_ascii (xs : JsonList) (h : safeList xs = true) :
    allAscii (stringifyElems xs) = true := by
  cases xs with
  | nil => decide
  | cons v tl =>
    simp only [safeList, Bool.and_eq_true] at h
    cases tl with
    | nil =>
      show allAscii (jsonStringifyChars v) = true
      exact stringify_ascii v h.1
    | cons v2 tl2 =>
      show allAscii (jsonStringifyChars v
        ++ ',' :: stringifyElems (JsonList.cons v2 tl2)) = true
      rw [allAscii_append, stringify_ascii v h.1]
      have := stringifyElems_ascii (JsonList.cons v2 tl2) h.2
      simp only [allAscii, List.all_cons, Bool.and_eq_true, decide_eq_true_eq] at this ⊢
      exact ⟨trivial, by decide, this⟩
theorem stringifyMembers_ascii (ms : JsonMembers) (h : safeMembers ms = true) :
    allAscii (stringifyMembers ms) = true := by
  cases ms with
  | nil => decide
  | cons k v tl =>
    simp only [safeMembers, Bool.and_eq_true] at h
    have hk : allAscii (dquote :: (escapeStringChars k.data ++ dquote :: ':'
        :: jsonStringifyChars v)) = true := by
      rw [escapeStringChars_safe k.data h.1.1]
      simp only [allAscii, List.all_cons, List.all_append, Bool.and_eq_true,
        decide_eq_true_eq]
      refine ⟨by decide, ?_, by decide, by decide, ?_⟩
      · have := safe_ascii k.data h.1.1
        simpa [allAscii] using this
      · have := stringify_ascii v h.1.2
        simpa [allAscii] using this
    cases tl with
    | nil => exact hk
    | cons k2 v2 tl2 =>
      show allAscii ((dquote :: (escapeStringChars k.data ++ dquote :: ':'
          :: jsonStringifyChars v))
        ++ ',' :: stringifyMembers (JsonMembers.cons k2 v2 tl2)) = true
      rw [allAscii_append, hk]
      have := stringifyMembers_ascii (JsonMembers.cons k2 v2 tl2) h.2
      simp only [allAscii, List.all_cons, Bool.and_eq_true, decide_eq_true_eq] at this ⊢
      exact ⟨trivial, by decide, this⟩
end

theorem stringify_head_ne_rbracket (v : JsonValue) :
    ∃ c t, jsonStringifyChars v = c :: t ∧ ¬ c = ']' := by
  cases v with
  | null => exact ⟨'n', _, rfl, by decide⟩
  | boolean b =>
    cases b
    · exact ⟨'f', _, rfl, by decide⟩
    · exact ⟨'t', _, rfl, by decide⟩
  | number n =>
    by_cases hneg : n < 0
    · refine ⟨'-', natDigits (-n).toNat, ?_, by decide⟩
      show intChars n = _
      unfold intChars
      rw [if_pos hneg]
    · obtain ⟨c, t, hct, hc⟩ := natDigits_cons n.toNat
      refine ⟨c, t, ?_, digit_not_char c ']' hc (by decide)⟩
      show intChars n = _
      unfold intChars
      rw [if_neg hneg, hct]
  | string s => exact ⟨dquote, _, rfl, by decide⟩
  | array xs => exact ⟨'[', _, rfl, by decide⟩
  | object ms => exact ⟨lbrace, _, rfl, by decide⟩

mutual
theorem parseValue_stringify (v : JsonValue) (rest : List Char) (fuel : Nat)
    (hs : safeJson v = true) (hr : headNotDigit rest = true)
    (hf : (jsonStringifyChars v).length + 1 ≤ fuel) :
    parseValue fuel (jsonStringifyChars v ++ rest) = some (v, rest) := by
  obtain ⟨f, rfl⟩ : ∃ f, fuel = f + 1 := ⟨fuel - 1, by omega⟩
  cases v with
  | null =>
    show parseValue (f + 1) ('n' :: 'u' :: 'l' :: 'l' :: rest) = _
    rfl
  | boolean b =>
    cases b with
    | true =>
      show parseValue (f + 1) ('t' :: 'r' :: 'u' :: 'e' :: rest) = _
      rfl
    | false =>
      show parseValue (f + 1) ('f' :: 'a' :: 'l' :: 's' :: 'e' :: rest) = _
      rfl
  | number n =>
    have hnum := parseNumberChars_intChars n rest hr
    by_cases hneg : n < 0
    · have hic : intChars n = '-' :: natDigits (-n).toNat := by
        unfold intChars
        rw [if_pos hneg]
      show parseValue (f + 1) (intChars n ++ rest) = _
      rw [hic, List.cons_append]
      show (parseNumberChars ('-' :: (natDigits (-n).toNat ++ rest))).map
        (fun p => (JsonValue.number p.1, p.2)) = _
      rw [show '-' :: (natDigits (-n).toNat ++ rest) = intChars n ++ rest from
        by rw [hic, List.cons_append], hnum]
      rfl
    · have hic : intChars n = natDigits n.toNat := by
        unfold intChars
        rw [if_neg hneg]
      obtain ⟨c, t, hct, hc⟩ := natDigits_cons n.toNat
      show parseValue (f + 1) (intChars n ++ rest) = _
      rw [hic, hct, List.cons_append]
      simp only [parseValue]
      rw [if_neg (digit_not_char c dquote hc (by decide)),
        if_neg (digit_not_char c '[' hc (by decide)),
        if_neg (digit_not_char c lbrace hc (by decide)),
        if_neg (digit_not_char c 'n' hc (by decide)),
        if_neg (digit_not_char c 't' hc (by decide)),
        if_neg (digit_not_char c 'f' hc (by decide)),
        if_pos (by simp [hc])]
      rw [show c :: (t ++ rest) = intChars n ++ rest from
        by rw [hic, hct, List.cons_append], hnum]
      rfl
  | string s =>
    have hss : safeString s = true := by simpa [safeJson] using hs
    have hshape : jsonStringifyChars (JsonValue.string s) ++ rest
        = dquote :: (s.data ++ dquote :: rest) := by
      show (dquote :: (escapeStringChars s.data ++ [dquote])) ++ rest = _
      rw [escapeStringChars_safe s.data hss]
      simp [List.append_assoc]
    rw [hshape]
    show (parseStringBody (s.data ++ dquote :: rest)).map
      (fun p => (JsonValue.string (String.mk p.1), p.2)) = _
    rw [parseStringBody_safe s.data hss rest]
    rfl
  | array xs =>
    cases xs with
    | nil =>
      show parseValue (f + 1) ('[' :: ']' :: rest) = _
      rfl
    | cons v tl =>
      have hsl : safeList (JsonList.cons v tl) = true := by simpa [safeJson] using hs
      simp only [safeList, Bool.and_eq_true] at hsl
      obtain ⟨c, t, hct, hcne⟩ := stringify_head_ne_rbracket v
      have hhead : ∃ u, stringifyElems (JsonList.cons v tl) = c :: u := by
        cases tl with
        | nil => exact ⟨t, hct⟩
        | cons v2 tl2 =>
          refine ⟨t ++ ',' :: stringifyElems (JsonList.cons v2 tl2), ?_⟩
          show jsonStringifyChars v ++ ',' :: stringifyElems (JsonList.cons v2 tl2) = _
          rw [hct]
          rfl
      obtain ⟨u, hu⟩ := hhead
      have hshape : jsonStringifyChars (JsonValue.array (JsonList.cons v tl)) ++ rest
          = '[' :: (stringifyElems (JsonList.cons v tl) ++ (']' :: rest)) := by
        show ('[' :: (stringifyElems (JsonList.cons v tl) ++ [']'])) ++ rest = _
        simp [List.append_assoc]
      have hlen : (jsonStringifyChars (JsonValue.array (JsonList.cons v tl))).length
          = (stringifyElems (JsonList.cons v tl)).length + 2 := by
        show ('[' :: (stringifyElems (JsonList.cons v tl) ++ [']'])).length = _
        simp
      rw [hshape, hu, List.cons_append]
      show (if c = ']' then some (JsonValue.array JsonList.nil, u ++ ']' :: rest)
        else (parseElems f (c :: (u ++ ']' :: rest))).map
          (fun p => (JsonValue.array p.1, p.2))) = _
      rw [if_neg hcne, ← List.cons_append, ← hu,
        parseElems_stringify v tl rest f hsl.1 hsl.2 (by rw [hlen] at hf; omega)]
      rfl
  | object ms =>
    cases ms with
    | nil =>
      show parseValue (f + 1) (lbrace :: rbrace :: rest) = _
      rfl
    | cons k v tl =>
      have hsm : safeMembers (JsonMembers.cons k v tl) = true := by
        simpa [safeJson] using hs
      simp only [safeMembers, Bool.and_eq_true] at hsm
      have hhead : ∃ u, stringifyMembers (JsonMembers.cons k v tl) = dquote :: u := by
        cases tl with
        | nil => exact ⟨_, rfl⟩
        | cons k2 v2 tl2 => exact ⟨_, rfl⟩
      obtain ⟨u, hu⟩ := hhead
      have hshape : jsonStringifyChars (JsonValue.object (JsonMembers.cons k v tl)) ++ rest
          = lbrace :: (stringifyMembers (JsonMembers.cons k v tl) ++ (rbrace :: rest)) := by
        show (lbrace :: (stringifyMembers (JsonMembers.cons k v tl) ++ [rbrace])) ++ rest = _
        simp [List.append_assoc]
      have hlen : (jsonStringifyChars (JsonValue.object (JsonMembers.cons k v tl))).length
          = (stringifyMembers (JsonMembers.cons k v tl)).length + 2 := by
        show (lbrace :: (stringifyMembers (JsonMembers.cons k v tl) ++ [rbrace])).length = _
        simp
      rw [hshape, hu, List.cons_append]
      show (parseMembers f (dquote :: (u ++ rbrace :: rest))).map
        (fun p => (JsonValue.object p.1, p.2)) = _
      rw [← List.cons_append, ← hu,
        parseMembers_stringify k v tl rest f hsm.1.1 hsm.1.2 hsm.2
          (by rw [hlen] at hf; omega)]
      rfl
termination_by sizeOf v
theorem parseElems_stringify (v : JsonValue) (tl : JsonList) (rest : List Char)
    (fuel : Nat) (hs : safeJson v = true) (hst : safeList tl = true)
    (hf : (stringifyElems (JsonList.cons v tl)).length + 2 ≤ fuel) :
    parseElems fuel (stringifyElems (JsonList.cons v tl) ++ (']' :: rest))
      = some (JsonList.cons v tl, rest) := by
  obtain ⟨f, rfl⟩ : ∃ f, fuel = f + 1 := ⟨fuel - 1, by omega⟩
  cases tl with
  | nil =>
    have hse : stringifyElems (JsonList.cons v JsonList.nil) = jsonStringifyChars v := rfl
    rw [hse] at hf ⊢
    have hpv := parseValue_stringify v (']' :: rest) f hs (by rfl) (by omega)
    simp only [parseElems]
    rw [hpv]
    rfl
  | cons v2 tl2 =>
    simp only [safeList, Bool.and_eq_true] at hst
    have hse : stringifyElems (JsonList.cons v (JsonList.cons v2 tl2))
        = jsonStringifyChars v ++ ',' :: stringifyElems (JsonList.cons v2 tl2) := rfl
    rw [hse] at hf ⊢
    have hlen : (jsonStringifyChars v
          ++ ',' :: stringifyElems (JsonList.cons v2 tl2)).length
        = (jsonStringifyChars v).length
          + (stringifyElems (JsonList.cons v2 tl2)).length + 1 := by
      simp
      omega
    rw [List.append_assoc, List.cons_append]
    have hpv := parseValue_stringify v
      (',' :: (stringifyElems (JsonList.cons v2 tl2) ++ (']' :: rest))) f hs (by rfl)
      (by rw [hlen] at hf; omega)
    have hpe := parseElems_stringify v2 tl2 rest f hst.1 hst.2
      (by rw [hlen] at hf; omega)
    simp only [parseElems]
    rw [hpv]
    show (parseElems f (stringifyElems (JsonList.cons v2 tl2) ++ (']' :: rest))).map
      (fun p => (JsonList.cons v p.1, p.2)) = _
    rw [hpe]
    rfl
termination_by sizeOf (JsonList.cons v tl)
theorem parseMembers_stringify (k : String) (v : JsonValue) (tl : JsonMembers)
    (rest : List Char) (fuel : Nat) (hk : safeString k = true) (hs : safeJson v = true)
    (hst : safeMembers tl = true)
    (hf : (stringifyMembers (JsonMembers.cons k v tl)).length + 2 ≤ fuel) :
    parseMembers fuel (stringifyMembers (JsonMembers.cons k v tl) ++ (rbrace :: rest))
      = some (JsonMembers.cons k v tl, rest) := by
  obtain ⟨f, rfl⟩ : ∃ f, fuel = f + 1 := ⟨fuel - 1, by omega⟩
  cases tl with
  | nil =>
    have hsm : stringifyMembers (JsonMembers.cons k v JsonMembers.nil)
        = dquote :: (escapeStringChars k.data ++ dquote :: ':' :: jsonStringifyChars v) :=
      rfl
    rw [hsm, escapeStringChars_safe k.data hk] at hf ⊢
    have hlen : (dquote :: (k.data ++ dquote :: ':' :: jsonStringifyChars v)).length
        = k.data.length + (jsonStringifyChars v).length + 3 := by
      simp
      omega
    have hshape : (dquote :: (k.data ++ dquote :: ':' :: jsonStringifyChars v))
          ++ (rbrace :: rest)
        = dquote :: (k.data ++ dquote
            :: (':' :: (jsonStringifyChars v ++ rbrace :: rest))) := by
      simp [List.append_assoc]
    rw [hshape]
    have hps := parseStringBody_safe k.data hk
      (':' :: (jsonStringifyChars v ++ rbrace :: rest))
    have hpv := parseValue_stringify v (rbrace :: rest) f hs (by rfl)
      (by rw [hlen] at hf; omega)
    simp only [parseMembers]
    rw [if_pos trivial, hps]
    show (match parseValue f (jsonStringifyChars v ++ rbrace :: rest) with
      | none => none
      | some (v2, r3) =>
        match r3 with
        | [] => none
        | e :: r4 =>
          if e = ',' then
            (parseMembers f r4).map
              (fun (p : JsonMembers × List Char) =>
                (JsonMembers.cons (String.mk k.data) v2 p.1, p.2))
          else if e = rbrace then
            some (JsonMembers.cons (String.mk k.data) v2 JsonMembers.nil, r4)
          else none) = _
    rw [hpv]
    rfl
  | cons k2 v2 tl2 =>
    simp only [safeMembers, Bool.and_eq_true] at hst
    have hsm : stringifyMembers (JsonMembers.cons k v (JsonMembers.cons k2 v2 tl2))
        = (dquote :: (escapeStringChars k.data ++ dquote :: ':' :: jsonStringifyChars v))
          ++ ',' :: stringifyMembers (JsonMembers.cons k2 v2 tl2) := rfl
    rw [hsm, escapeStringChars_safe k.data hk] at hf ⊢
    have hlen : ((dquote :: (k.data ++ dquote :: ':' :: jsonStringifyChars v))
          ++ ',' :: stringifyMembers (JsonMembers.cons k2 v2 tl2)).length
        = k.data.length + (jsonStringifyChars v).length
          + (stringifyMembers (JsonMembers.cons k2 v2 tl2)).length + 4 := by
      simp
      omega
    have hshape : ((dquote :: (k.data ++ dquote :: ':' :: jsonStringifyChars v))
          ++ ',' :: stringifyMembers (JsonMembers.cons k2 v2 tl2)) ++ (rbrace :: rest)
        = dquote :: (k.data ++ dquote :: (':' :: (jsonStringifyChars v
            ++ ',' :: (stringifyMembers (JsonMembers.cons k2 v2 tl2)
              ++ (rbrace :: rest))))) := by
      simp [List.append_assoc]
    rw [hshape]
    have hps := parseStringBody_safe k.data hk
      (':' :: (jsonStringifyChars v ++ ',' :: (stringifyMembers
        (JsonMembers.cons k2 v2 tl2) ++ (rbrace :: rest))))
    have hpv := parseValue_stringify v
      (',' :: (stringifyMembers (JsonMembers.cons k2 v2 tl2) ++ (rbrace :: rest))) f hs
      (by rfl) (by rw [hlen] at hf; omega)
    have hpm := parseMembers_stringify k2 v2 tl2 rest f hst.1.1 hst.1.2 hst.2
      (by rw [hlen] at hf; omega)
    simp only [parseMembers]
    rw [if_pos trivial, hps]
    show (match parseValue f (jsonStringifyChars v
        ++ ',' :: (stringifyMembers (JsonMembers.cons k2 v2 tl2) ++ (rbrace :: rest))) with
      | none => none
      | some (v3, r3) =>
        match r3 with
        | [] => none
        | e :: r4 =>
          if e = ',' then
            (parseMembers f r4).map
              (fun (p : JsonMembers × List Char) =>
                (JsonMembers.cons (String.mk k.data) v3 p.1, p.2))
          else if e = rbrace then
            some (JsonMembers.cons (String.mk k.data) v3 JsonMembers.nil, r4)
          else none) = _
    rw [hpv]
    show (parseMembers f (stringifyMembers (JsonMembers.cons k2 v2 tl2)
        ++ (rbrace :: rest))).map
      (fun p => (JsonMembers.cons (String.mk k.data) v p.1, p.2)) = _
    rw [hpm]
    rfl
termination_by sizeOf (JsonMembers.cons k v tl)
end

theorem urlSafeParseChars_stringify (v : JsonValue) (h : safeJson v = true) :
    urlSafeParseChars (jsonStringifyChars v) = some v := by
  unfold urlSafeParseChars
  have hpv := parseValue_stringify v [] ((jsonStringifyChars v).length + 1) h (by rfl)
    (by omega)
  rw [List.append_nil] at hpv
  rw [hpv]

/-- C6: for every JSON-object value with no unsafe characters, the
inbound decoding inverts the outbound encoding — percent-decoding the
`encodeFragment` output restores the serialized text, parsing that text
restores the value, and the standard-form inbound path applied to the
written fragment `#!` + encoding restores the same object into the
tree. -/
theorem c6_round_trip (v : JsonValue) (hobj : isJsonObject v = true)
    (hsafe : safeJson v = true) :
    decodeURIComponent (encodeFragment (jsonStringify v)) = some (jsonStringify v)
    ∧ urlSafeParse (jsonStringify v) = some v
    ∧ ∀ st : BindingState, ¬ st.prevStateString = some (jsonStringify v) →
        updateFromUrlHash none
            (String.mk ('#' :: '!' :: encodeFragmentChars (jsonStringifyChars v))) st
          = ({ st with prevStateString := some (jsonStringify v), parseError := none },
             [TreeOp.reset, TreeOp.restoreState v], Outcome.success) := by
  have hascii : allAscii (jsonStringifyChars v) = true := stringify_ascii v hsafe
  refine ⟨?_, ?_, ?_⟩
  · show (decodeChars (encodeFragmentChars (jsonStringifyChars v))).map String.mk = _
    rw [decodeChars_encodeFragmentChars _ hascii]
    rfl
  · show urlSafeParseChars (jsonStringifyChars v) = _
    exact urlSafeParseChars_stringify v hsafe
  · intro st hprev
    obtain ⟨ms, rfl⟩ : ∃ ms, v = JsonValue.object ms := by
      cases v with
      | object ms => exact ⟨ms, rfl⟩
      | null => exact absurd hobj (by decide)
      | boolean b => exact absurd hobj (by simp [isJsonObject])
      | number n => exact absurd hobj (by simp [isJsonObject])
      | string s => exact absurd hobj (by simp [isJsonObject])
      | array xs => exact absurd hobj (by simp [isJsonObject])
    have hshape : jsonStringifyChars (JsonValue.object ms)
        = lbrace :: (stringifyMembers ms ++ [rbrace]) := rfl
    have ha2 : allAscii (lbrace :: (stringifyMembers ms ++ [rbrace])) = true := by
      rw [← hshape]
      exact hascii
    rw [hshape, standard_single_decode (stringifyMembers ms ++ [rbrace]) st ha2]
    unfold standardRestore
    have hprev2 : ¬ st.prevStateString
        = some (String.mk (lbrace :: (stringifyMembers ms ++ [rbrace]))) := hprev
    rw [if_neg hprev2]
    have hup : urlSafeParseChars (lbrace :: (stringifyMembers ms ++ [rbrace]))
        = some (JsonValue.object ms) := by
      rw [← hshape]
      exact urlSafeParseChars_stringify _ hsafe
    simp only [hup]
    rw [if_pos (by rfl : isJsonObject (JsonValue.object ms) = true)]
    rfl

/-- C6, witness: the concrete object `\x7b"a":1\x7d` round-trips. -/
theorem c6_round_trip_witness :
    decodeURIComponent (encodeFragment (jsonStringify
        (JsonValue.object (JsonMembers.cons "a" (JsonValue.number 1) JsonMembers.nil))))
      = some (jsonStringify
          (JsonValue.object (JsonMembers.cons "a" (JsonValue.number 1) JsonMembers.nil)))
    ∧ urlSafeParse (jsonStringify
        (JsonValue.object (JsonMembers.cons "a" (JsonValue.number 1) JsonMembers.nil)))
      = some (JsonValue.object (JsonMembers.cons "a" (JsonValue.number 1) JsonMembers.nil)) :=
  ⟨(c6_round_trip
      (JsonValue.object (JsonMembers.cons "a" (JsonValue.number 1) JsonMembers.nil))
      (by decide) (by decide)).1,
   (c6_round_trip
      (JsonValue.object (JsonMembers.cons "a" (JsonValue.number 1) JsonMembers.nil))
      (by decide) (by decide)).2.1⟩
